import Mathlib

/-!
Verification development for the croc-content translation-manager core:
a shallow embedding of the four core algorithms (tree flattener, tree
builders, key sanitizer/linter, duplicate detector) together with theorems
about them.

Modelling conventions:
* JSON values are the inductive `Json`; JavaScript objects are modelled as
  insertion-ordered association lists (`Jobj`).  Property update keeps the
  position of an existing key and appends new keys, matching both plain JS
  object assignment and `Map.prototype.set`.
* A JS property access that can yield `undefined` is conflated with `null`
  (`getKey`/`getProp` return `Json.null` for a missing key); every use site
  in the source only tests such values for truthiness or `!= null`, where
  `undefined` and `null` behave identically.
* The builders can throw a `TypeError` at runtime (descending through a
  property whose value is `null`, since `typeof null === 'object'`); they
  are therefore modelled in `Except Unit`.  The flattener, sanitizer,
  linter and duplicate detector perform no throwing operation and are
  modelled as plain total functions.
* `String.prototype.toLowerCase` is modelled per-character by
  `Char.toLower` (ASCII case mapping) and JS whitespace by
  `Char.isWhitespace`; the claims proved here do not depend on the exotic
  Unicode cases where these differ.
-/

namespace Croc

/-- A parsed JSON value.  Numbers are modelled as integers; no claim in this
development depends on numeric values. -/
inductive Json where
  | null : Json
  | bool : Bool → Json
  | num : Int → Json
  | str : String → Json
  | arr : List Json → Json
  | obj : List (String × Json) → Json

mutual

/-- Decidable equality for `Json` (the nested inductive prevents deriving). -/
def Json.decEq : (a b : Json) → Decidable (a = b)
  | .null, .null => isTrue rfl
  | .null, .bool _ => isFalse (fun h => Json.noConfusion h)
  | .null, .num _ => isFalse (fun h => Json.noConfusion h)
  | .null, .str _ => isFalse (fun h => Json.noConfusion h)
  | .null, .arr _ => isFalse (fun h => Json.noConfusion h)
  | .null, .obj _ => isFalse (fun h => Json.noConfusion h)
  | .bool _, .null => isFalse (fun h => Json.noConfusion h)
  | .bool a, .bool b =>
      if h : a = b then isTrue (by rw [h]) else isFalse (fun hh => h (Json.bool.inj hh))
  | .bool _, .num _ => isFalse (fun h => Json.noConfusion h)
  | .bool _, .str _ => isFalse (fun h => Json.noConfusion h)
  | .bool _, .arr _ => isFalse (fun h => Json.noConfusion h)
  | .bool _, .obj _ => isFalse (fun h => Json.noConfusion h)
  | .num _, .null => isFalse (fun h => Json.noConfusion h)
  | .num _, .bool _ => isFalse (fun h => Json.noConfusion h)
  | .num a, .num b =>
      if h : a = b then isTrue (by rw [h]) else isFalse (fun hh => h (Json.num.inj hh))
  | .num _, .str _ => isFalse (fun h => Json.noConfusion h)
  | .num _, .arr _ => isFalse (fun h => Json.noConfusion h)
  | .num _, .obj _ => isFalse (fun h => Json.noConfusion h)
  | .str _, .null => isFalse (fun h => Json.noConfusion h)
  | .str _, .bool _ => isFalse (fun h => Json.noConfusion h)
  | .str _, .num _ => isFalse (fun h => Json.noConfusion h)
  | .str a, .str b =>
      if h : a = b then isTrue (by rw [h]) else isFalse (fun hh => h (Json.str.inj hh))
  | .str _, .arr _ => isFalse (fun h => Json.noConfusion h)
  | .str _, .obj _ => isFalse (fun h => Json.noConfusion h)
  | .arr _, .null => isFalse (fun h => Json.noConfusion h)
  | .arr _, .bool _ => isFalse (fun h => Json.noConfusion h)
  | .arr _, .num _ => isFalse (fun h => Json.noConfusion h)
  | .arr _, .str _ => isFalse (fun h => Json.noConfusion h)
  | .arr xs, .arr ys =>
      match Json.decEqList xs ys with
      | isTrue h => isTrue (by rw [h])
      | isFalse h => isFalse (fun hh => h (Json.arr.inj hh))
  | .arr _, .obj _ => isFalse (fun h => Json.noConfusion h)
  | .obj _, .null => isFalse (fun h => Json.noConfusion h)
  | .obj _, .bool _ => isFalse (fun h => Json.noConfusion h)
  | .obj _, .num _ => isFalse (fun h => Json.noConfusion h)
  | .obj _, .str _ => isFalse (fun h => Json.noConfusion h)
  | .obj _, .arr _ => isFalse (fun h => Json.noConfusion h)
  | .obj xs, .obj ys =>
      match Json.decEqEntries xs ys with
      | isTrue h => isTrue (by rw [h])
      | isFalse h => isFalse (fun hh => h (Json.obj.inj hh))

def Json.decEqList : (xs ys : List Json) → Decidable (xs = ys)
  | [], [] => isTrue rfl
  | [], _ :: _ => isFalse (fun h => List.noConfusion h)
  | _ :: _, [] => isFalse (fun h => List.noConfusion h)
  | x :: xs, y :: ys =>
      match Json.decEq x y, Json.decEqList xs ys with
      | isTrue h1, isTrue h2 => isTrue (by rw [h1, h2])
      | isFalse h1, _ => isFalse (fun h => h1 (List.cons.inj h).1)
      | _, isFalse h2 => isFalse (fun h => h2 (List.cons.inj h).2)

def Json.decEqEntries : (xs ys : List (String × Json)) → Decidable (xs = ys)
  | [], [] => isTrue rfl
  | [], _ :: _ => isFalse (fun h => List.noConfusion h)
  | _ :: _, [] => isFalse (fun h => List.noConfusion h)
  | (k, v) :: xs, (k2, v2) :: ys =>
      match String.decEq k k2, Json.decEq v v2, Json.decEqEntries xs ys with
      | isTrue h0, isTrue h1, isTrue h2 => isTrue (by rw [h0, h1, h2])
      | isFalse h0, _, _ =>
          isFalse (fun h => h0 (congrArg Prod.fst (List.cons.inj h).1))
      | _, isFalse h1, _ =>
          isFalse (fun h => h1 (congrArg Prod.snd (List.cons.inj h).1))
      | _, _, isFalse h2 => isFalse (fun h => h2 (List.cons.inj h).2)

end

instance : DecidableEq Json := Json.decEq

/-- A JavaScript object: an insertion-ordered association list. -/
abbrev Jobj := List (String × Json)

/-- JS truthiness of a JSON value (objects and arrays are always truthy). -/
def truthy : Json → Bool
  | .null => false
  | .bool b => b
  | .num n => n != 0
  | .str s => s != ""
  | .arr _ => true
  | .obj _ => true

/-- First-match lookup in an association list (`m.get(k)` / `m[k]`),
returning `none` for a missing key. -/
def assocGet (m : List (String × α)) (k : String) : Option α :=
  (m.find? (fun e => e.1 == k)).map (fun e => e.2)

/-- JS property / `Map` update: replace the first binding of `k` in place,
or append a new binding at the end. -/
def assocSet (m : List (String × α)) (k : String) (v : α) : List (String × α) :=
  match m with
  | [] => [(k, v)]
  | e :: rest => if e.1 == k then (k, v) :: rest else e :: assocSet rest k v

/-- `k in o` for a JS object. -/
def hasKey (es : Jobj) (k : String) : Bool :=
  es.any (fun e => e.1 == k)

/-- `o[k]` with `undefined` conflated to `null`. -/
def getKey (es : Jobj) (k : String) : Json :=
  (assocGet es k).getD .null

/-- `x?.[k]` — property access on an arbitrary value; non-objects yield
`undefined`, conflated to `null`. -/
def getProp (j : Json) (k : String) : Json :=
  match j with
  | .obj es => getKey es k
  | _ => .null

/-- The three fixed language codes. -/
inductive Lang where
  | az : Lang
  | en : Lang
  | ru : Lang
deriving DecidableEq

/-- The flattener's row type (`FlatRow` in the source).  The `as string`
casts in the source are type-level only; at runtime the fields hold whatever
JSON value was present, so they are modelled as `Json` (with `.null` for the
initial nulls). -/
structure FlatRow where
  key_path : String
  az_value : Json
  en_value : Json
  ru_value : Json
  token_type : Json
  figma_variable_id : Json
deriving DecidableEq

/-- The fresh row created for a previously unseen path. -/
def FlatRow.blank (p : String) : FlatRow :=
  ⟨p, .null, .null, .null, .null, .null⟩

def FlatRow.getVal (r : FlatRow) : Lang → Json
  | .az => r.az_value
  | .en => r.en_value
  | .ru => r.ru_value

def FlatRow.setVal (r : FlatRow) (lang : Lang) (v : Json) : FlatRow :=
  match lang with
  | .az => { r with az_value := v }
  | .en => { r with en_value := v }
  | .ru => { r with ru_value := v }

/-- The flattener's group-extension record (`GroupExt` in the source). -/
structure GroupExt where
  group_path : String
  extensions : Json
deriving DecidableEq

/-- The two mutable maps threaded through `flattenNode`. -/
structure FlatState where
  rows : List (String × FlatRow)
  exts : List (String × GroupExt)
deriving DecidableEq

/-- `pathPrefix ? pathPrefix + "." + key : key` (string truthiness). -/
def joinKey (pre k : String) : String :=
  if pre == "" then k else pre ++ "." ++ k

/-- The leaf-token branch of `flattenNode` (source lines 35–54): set the
language value, overwrite `token_type` only from a truthy `$type`, and
overwrite `figma_variable_id` only from a truthy
`$extensions["com.figma"].variableId`. -/
def updateLeafRow (lang : Lang) (child : Jobj) (path : String)
    (old : Option FlatRow) : FlatRow :=
  let r0 := old.getD (FlatRow.blank path)
  let r1 := r0.setVal lang (getKey child "$value")
  let r2 := { r1 with
    token_type := if truthy (getKey child "$type") then getKey child "$type" else r1.token_type }
  if truthy (getKey child "$extensions") then
    let vid := getProp (getProp (getKey child "$extensions") "com.figma") "variableId"
    { r2 with
      figma_variable_id := if truthy vid then vid else r2.figma_variable_id }
  else r2

mutual

/-- One iteration of the `for (const [key, value] of Object.entries(node))`
loop of `flattenNode`: skip `$extensions`, skip non-objects, treat a child
with `$value` as a leaf token and anything else as a group to recurse into.
Arrays satisfy `typeof child === 'object'` and are traversed like objects
with their indices as keys. -/
def flattenEntry (lang : Lang) (pre : String) (k : String) (v : Json)
    (st : FlatState) : FlatState :=
  if k == "$extensions" then st
  else
    match v with
    | .obj child =>
        let cur := joinKey pre k
        if hasKey child "$value" then
          { st with rows :=
              assocSet st.rows cur (updateLeafRow lang child cur (assocGet st.rows cur)) }
        else
          let st1 :=
            if truthy (getKey child "$extensions") then
              { st with exts := assocSet st.exts cur ⟨cur, getKey child "$extensions"⟩ }
            else st
          flattenEntries lang cur child st1
    | .arr elems =>
        flattenElems lang (joinKey pre k) 0 elems st
    | _ => st

/-- The entry loop of `flattenNode` over an object's entries. -/
def flattenEntries (lang : Lang) (pre : String) (es : List (String × Json))
    (st : FlatState) : FlatState :=
  match es with
  | [] => st
  | e :: rest => flattenEntries lang pre rest (flattenEntry lang pre e.1 e.2 st)

/-- The entry loop over an array's elements (`Object.entries` of an array
yields the stringified indices in order). -/
def flattenElems (lang : Lang) (pre : String) (i : Nat) (xs : List Json)
    (st : FlatState) : FlatState :=
  match xs with
  | [] => st
  | x :: rest => flattenElems lang pre (i + 1) rest (flattenEntry lang pre (toString i) x st)

end

/-- `if (json) flattenNode(json, '', lang, rows, groupExtensions)`. -/
def runFlatten (lang : Lang) (j : Option Jobj) (st : FlatState) : FlatState :=
  match j with
  | none => st
  | some es => flattenEntries lang "" es st

/-- `flattenJsons`: process the three optional trees in the fixed order
az, en, ru and return the map values in insertion order. -/
def flattenJsons (az en ru : Option Jobj) : List FlatRow × List GroupExt :=
  let st := runFlatten .ru ru (runFlatten .en en (runFlatten .az az ⟨[], []⟩))
  (st.rows.map (fun e => e.2), st.exts.map (fun e => e.2))

mutual

/-- No object key anywhere in the tree is the empty string. -/
def noEmptyKeysJ : Json → Bool
  | .obj es => noEmptyKeysO es
  | .arr xs => noEmptyKeysL xs
  | _ => true

def noEmptyKeysO : List (String × Json) → Bool
  | [] => true
  | e :: rest => e.1 != "" && noEmptyKeysJ e.2 && noEmptyKeysO rest

def noEmptyKeysL : List Json → Bool
  | [] => true
  | x :: rest => noEmptyKeysJ x && noEmptyKeysL rest

end

/-- All rows of a flattening state have non-empty key paths. -/
def RowsNE (st : FlatState) : Prop :=
  ∀ e ∈ st.rows, e.2.key_path ≠ ""

/-! ### Path splitting and joining

`key_path.split('.')` and `segments.join('.')` are modelled on character
lists; for the single-character separator `.` the JS semantics is exactly
the recursion below (`"".split('.')` is `[""]`, `"a..b".split('.')` is
`["a", "", "b"]`). -/

/-- Prepend one character to the first segment of a split (or start a new
empty segment when the character is the separator). -/
def splitConsSeg (c : Char) : List (List Char) → List (List Char)
  | [] => [[]]
  | s :: ss => if c = '.' then [] :: s :: ss else (c :: s) :: ss

/-- Split a character list at every dot; never returns `[]`. -/
def splitSegsL : List Char → List (List Char)
  | [] => [[]]
  | c :: rest => splitConsSeg c (splitSegsL rest)

/-- Join character lists with dots (`Array.prototype.join('.')`). -/
def joinSegsL : List (List Char) → List Char
  | [] => []
  | [s] => s
  | s :: s2 :: rest => s ++ '.' :: joinSegsL (s2 :: rest)

/-- `path.split('.')` on strings. -/
def splitPath (p : String) : List String :=
  (splitSegsL p.data).map (fun l => ⟨l⟩)

/-- `segments.join('.')` on strings. -/
def joinPath (segs : List String) : String :=
  ⟨joinSegsL (segs.map String.data)⟩

/-! ### The persisted row model and the builders (`types.ts`, `jsonBuilder.ts`) -/

/-- The `Translation` row of `types.ts`, restricted to the fields the core
algorithms read (`id`, `project_id`, `original_key` and the timestamps are
never consulted by the builders or the duplicate detector). -/
structure Translation where
  key_path : String
  az_value : Option String
  en_value : Option String
  ru_value : Option String
  token_type : Option String
  figma_variable_id : Option String
deriving DecidableEq

def Translation.getVal (t : Translation) : Lang → Option String
  | .az => t.az_value
  | .en => t.en_value
  | .ru => t.ru_value

/-- The `GroupExtension` record of `types.ts` (fields used by the builder). -/
structure GroupExtension where
  group_path : String
  extensions : Json
deriving DecidableEq

instance {ε α : Type} [DecidableEq ε] [DecidableEq α] : DecidableEq (Except ε α) := fun a b =>
  match a, b with
  | .error e, .error f =>
      if h : e = f then isTrue (by rw [h]) else isFalse (fun hh => h (Except.error.inj hh))
  | .ok x, .ok y =>
      if h : x = y then isTrue (by rw [h]) else isFalse (fun hh => h (Except.ok.inj hh))
  | .error _, .ok _ => isFalse (fun h => Except.noConfusion h)
  | .ok _, .error _ => isFalse (fun h => Except.noConfusion h)

/-- `typeof x === 'object'` — true for objects, arrays and, by the
well-known JS quirk, for `null`. -/
def jsTypeofObject : Json → Bool
  | .obj _ => true
  | .arr _ => true
  | .null => true
  | _ => false

/-- `setNestedValue` of `jsonBuilder.ts`.  For every intermediate segment:
if the key is absent or its value is not `typeof 'object'`, it is replaced
by a fresh `{}`; then the walk descends into it.  Descending into `null`
(possible because `typeof null === 'object'`) makes the next property
access throw a `TypeError`, modelled as `.error ()`.  The array case is
also mapped to `.error ()`: values placed by the builders are only objects
and strings, so no array can ever occur in a built tree and the branch is
unreachable in every use in this development. -/
def setNested (es : Jobj) (segs : List String) (value : Json) : Except Unit Jobj :=
  match segs with
  | [] => .ok es
  | [last] => .ok (assocSet es last value)
  | s :: rest =>
      let es1 := if hasKey es s && jsTypeofObject (getKey es s) then es
        else assocSet es s (.obj [])
      match assocGet es1 s with
      | some (.obj child) =>
          match setNested child rest value with
          | .ok child1 => .ok (assocSet es1 s (.obj child1))
          | .error e => .error e
      | _ => .error ()

/-- One iteration of `applyGroupExtensions`: walk every segment of the
group path with the same create-or-descend rule as `setNestedValue`, then
set `$extensions` at the reached node. -/
def applyGroupExt (es : Jobj) (segs : List String) (ext : Json) : Except Unit Jobj :=
  match segs with
  | [] => .ok (assocSet es "$extensions" ext)
  | s :: rest =>
      let es1 := if hasKey es s && jsTypeofObject (getKey es s) then es
        else assocSet es s (.obj [])
      match assocGet es1 s with
      | some (.obj child) =>
          match applyGroupExt child rest ext with
          | .ok child1 => .ok (assocSet es1 s (.obj child1))
          | .error e => .error e
      | _ => .error ()

/-- The `"string"` → `"text"` rewrite of the developer builder. -/
def devTokenType (t : Translation) : Option String :=
  if t.token_type == some "string" then some "text" else t.token_type

def jsonOfOptStr : Option String → Json
  | none => .null
  | some s => .str s

/-- The leaf object `{ $value, $type }` placed by `buildDeveloperJson`. -/
def devToken (t : Translation) (v : String) : Json :=
  .obj [("$value", .str v), ("$type", jsonOfOptStr (devTokenType t))]

/-- Place one language's value of one row into that language's subtree. -/
def devPlace (t : Translation) (v : Option String) (es : Jobj) : Except Unit Jobj :=
  match v with
  | none => .ok es
  | some s => setNested es (splitPath t.key_path) (devToken t s)

/-- One iteration of the `for (const t of translations)` loop of
`buildDeveloperJson` over the triple of language subtrees. -/
def devStep (acc : Except Unit (Jobj × Jobj × Jobj)) (t : Translation) :
    Except Unit (Jobj × Jobj × Jobj) :=
  match acc with
  | .error e => .error e
  | .ok (azT, enT, ruT) =>
      match devPlace t t.az_value azT with
      | .error e => .error e
      | .ok azT1 =>
          match devPlace t t.en_value enT with
          | .error e => .error e
          | .ok enT1 =>
              match devPlace t t.ru_value ruT with
              | .error e => .error e
              | .ok ruT1 => .ok (azT1, enT1, ruT1)

/-- `buildDeveloperJson`: fixed top-level keys `Translations/AZ`,
`Translations/EN`, `Translations/RU` (in insertion order), each holding the
nested rows of that language; rows with a `null` value for a language are
omitted from that language's subtree. -/
def buildDeveloperJson (ts : List Translation) : Except Unit Jobj :=
  match ts.foldl devStep (.ok ([], [], [])) with
  | .error e => .error e
  | .ok (azT, enT, ruT) =>
      .ok [("Translations/AZ", .obj azT), ("Translations/EN", .obj enT),
           ("Translations/RU", .obj ruT)]

/-- The leaf object of `buildFigmaJson`: `{ $type, $value }` plus
`$extensions` only when `figma_variable_id` is truthy (non-null and
non-empty). -/
def figmaToken (t : Translation) (v : String) : Json :=
  let base : Jobj := [("$type", jsonOfOptStr t.token_type), ("$value", .str v)]
  match t.figma_variable_id with
  | some vid =>
      if vid == "" then .obj base
      else .obj (assocSet base "$extensions"
        (.obj [("com.figma", .obj [("variableId", .str vid)])]))
  | none => .obj base

/-- One iteration of the row loop of `buildFigmaJson`. -/
def figmaStep (lang : Lang) (acc : Except Unit Jobj) (t : Translation) : Except Unit Jobj :=
  match acc with
  | .error e => .error e
  | .ok es =>
      match t.getVal lang with
      | none => .ok es
      | some v => setNested es (splitPath t.key_path) (figmaToken t v)

/-- One iteration of the `for (const ge of groupExtensions)` loop. -/
def geStep (acc : Except Unit Jobj) (ge : GroupExtension) : Except Unit Jobj :=
  match acc with
  | .error e => .error e
  | .ok es => applyGroupExt es (splitPath ge.group_path) ge.extensions

/-- `buildFigmaJson`: per-language leaves (with reattached variable ids)
followed by the group-extension pass. -/
def buildFigmaJson (ts : List Translation) (ges : List GroupExtension)
    (lang : Lang) : Except Unit Jobj :=
  ges.foldl geStep (ts.foldl (figmaStep lang) (.ok []))

/-! ### Duplicate detection (`duplicateDetector.ts`) -/

structure DuplicateGroup where
  value : String
  language : Lang
  keyPaths : List String
deriving DecidableEq

/-- `!val || val.trim() === ''`: the row-skipping test (null, empty, or
whitespace-only value). -/
def skipValue : Option String → Bool
  | none => true
  | some v => v == "" || v.data.all Char.isWhitespace

/-- One iteration of the row loop: append the row's key path to the bucket
of its value (`valueMap.get(val) || []` then `push`/`set`). -/
def dupStep (lang : Lang) (m : List (String × List String)) (t : Translation) :
    List (String × List String) :=
  match t.getVal lang with
  | none => m
  | some v =>
      if v == "" || v.data.all Char.isWhitespace then m
      else assocSet m v ((assocGet m v).getD [] ++ [t.key_path])

/-- The per-language pass: build the value map, then emit one group per
value with more than one collected key path, in map insertion order. -/
def dupForLang (ts : List Translation) (lang : Lang) : List DuplicateGroup :=
  (ts.foldl (dupStep lang) []).filterMap
    (fun e => if e.2.length > 1 then some ⟨e.1, lang, e.2⟩ else none)

/-- `findDuplicateValues`: the three languages in fixed order az, en, ru. -/
def findDuplicateValues (ts : List Translation) : List DuplicateGroup :=
  dupForLang ts .az ++ dupForLang ts .en ++ dupForLang ts .ru

/-! #### Specification model of the duplicate detector

The following definitions restate §4.5 of the specification in its own
words (per-language grouping by exact value equality over the qualifying
rows, values in first-occurrence order, key paths in row order); they exist
to be compared with `findDuplicateValues` above. -/

/-- Keep the first occurrence of every element, in order. -/
def firstDedup : List String → List String
  | [] => []
  | a :: l => a :: firstDedup (l.filter (fun x => x != a))
termination_by l => l.length
decreasing_by
  exact Nat.lt_succ_of_le (List.length_filter_le _ _)

/-- The (value, key path) pair a row contributes when it passes the skip
test. -/
def qualEntry (lang : Lang) (t : Translation) : Option (String × String) :=
  match t.getVal lang with
  | none => none
  | some v =>
      if v == "" || v.data.all Char.isWhitespace then none
      else some (v, t.key_path)

/-- The (value, key path) pairs of the rows that pass the skip test, in
row order. -/
def specQualRows (ts : List Translation) (lang : Lang) : List (String × String) :=
  ts.filterMap (qualEntry lang)

/-- The key paths of the qualifying rows holding value `v`, in row order. -/
def specValuePaths (ts : List Translation) (lang : Lang) (v : String) : List String :=
  ((specQualRows ts lang).filter (fun e => e.1 == v)).map (fun e => e.2)

/-- One group per value occurring in at least two qualifying rows, values
in first-occurrence order. -/
def specDupForLang (ts : List Translation) (lang : Lang) : List DuplicateGroup :=
  (firstDedup ((specQualRows ts lang).map (fun e => e.1))).filterMap (fun v =>
    if (specValuePaths ts lang v).length > 1 then
      some ⟨v, lang, specValuePaths ts lang v⟩
    else none)

/-- The specification's description of `findDuplicateValues`. -/
def specFindDuplicateValues (ts : List Translation) : List DuplicateGroup :=
  specDupForLang ts .az ++ specDupForLang ts .en ++ specDupForLang ts .ru

/-! ### Key sanitizer and linter (`keyOptimizer.ts`) -/

/-- The fixed reserved-word set, transcribed verbatim from the source. -/
def FORBIDDEN_KEYWORDS : List String :=
  ["abstract", "assert", "boolean", "break", "byte", "case", "catch", "char",
   "class", "const", "continue", "default", "do", "double", "else", "enum",
   "extends", "final", "finally", "float", "for", "goto", "if", "implements",
   "import", "instanceof", "int", "interface", "long", "native", "new", "null",
   "package", "private", "protected", "public", "return", "short", "static",
   "strictfp", "super", "switch", "synchronized", "this", "throw", "throws",
   "transient", "try", "void", "volatile", "while",
   "as", "fun", "in", "is", "object", "typealias", "typeof", "val", "var",
   "when", "companion", "data", "sealed", "internal", "open", "lateinit",
   "inline", "crossinline", "noinline", "reified", "suspend", "tailrec",
   "vararg", "where", "it", "out", "dynamic", "actual", "expect",
   "let", "func", "self", "true", "false", "nil", "inout", "init", "deinit",
   "subscript", "convenience", "required", "override", "mutating", "lazy",
   "weak", "unowned", "optional", "prefix", "postfix", "infix", "operator",
   "fileprivate", "rethrows", "repeat", "guard", "defer", "fallthrough",
   "associatedtype", "protocol", "struct", "extension", "indirect", "get", "set",
   "willset", "didset", "any", "some",
   "auto", "register", "extern", "union", "signed", "unsigned", "sizeof", "typedef",
   "id", "string", "layout", "color", "style", "drawable", "menu", "raw", "xml",
   "mipmap", "name", "anim", "animator", "array", "attr", "bool", "dimen",
   "fraction", "integer", "interpolator", "plurals", "values", "font", "unit",
   "type", "value", "key", "index", "item", "list", "map", "result", "error"]

/-- The characters kept by `.replace(/[^a-z0-9_]/g, '')`:
`a`–`z` (97–122), `0`–`9` (48–57) and `_` (95). -/
def isKeepChar (c : Char) : Bool :=
  (97 ≤ c.toNat && c.toNat ≤ 122) || (48 ≤ c.toNat && c.toNat ≤ 57) || c == '_'

/-- `/^[0-9]/` on a single character. -/
def isAsciiDigit (c : Char) : Bool :=
  48 ≤ c.toNat && c.toNat ≤ 57

/-- The underscore test of `/_+/` and `/^_+|_+$/`. -/
def underP (c : Char) : Bool :=
  c == '_'

/-- Replace every maximal run of characters satisfying `p` by a single
`rep` (models `.replace(/\s+/g, '_')` and `.replace(/_+/g, '_')`). -/
def collapseRuns (p : Char → Bool) (rep : Char) (inRun : Bool) : List Char → List Char
  | [] => []
  | c :: rest =>
      if p c then
        if inRun then collapseRuns p rep true rest
        else rep :: collapseRuns p rep true rest
      else c :: collapseRuns p rep false rest

/-- `.replace(/^_+|_+$/g, '')`. -/
def trimUnders (l : List Char) : List Char :=
  ((l.dropWhile underP).reverse.dropWhile underP).reverse

/-- The five chained string operations of `optimizeKey`, before the
empty/digit and reserved-word fixes. -/
def cleanup (s : String) : List Char :=
  trimUnders (collapseRuns underP '_' false
    ((collapseRuns Char.isWhitespace '_' false (s.data.map Char.toLower)).filter isKeepChar))

structure OptimizeResult where
  optimized : String
  wasChanged : Bool
deriving DecidableEq

/-- `optimizeKey`: cleanup, then prepend `fix_` when empty or
digit-leading, then prepend `common_fix_` when reserved;
`wasChanged` compares the final result with the untouched input. -/
def optimizeKey (key : String) : OptimizeResult :=
  let r1 := cleanup key
  let r2 := if r1.isEmpty || (match r1 with | c :: _ => isAsciiDigit c | [] => false)
    then "fix_".data ++ r1 else r1
  let r3 := if FORBIDDEN_KEYWORDS.contains (⟨r2⟩ : String)
    then "common_fix_".data ++ r2 else r2
  { optimized := ⟨r3⟩, wasChanged := key != (⟨r3⟩ : String) }

structure KeyIssue where
  original : String
  suggested : String
  keyPath : String
deriving DecidableEq

/-- `analyzeKeyIssues`: sanitize only the last path segment; return an
issue (with only that segment replaced) exactly when it changed.
`split('.')` never yields an empty array, so the `getD` default is
unreachable. -/
def analyzeKeyIssues (kp : String) : Option KeyIssue :=
  let segments := splitPath kp
  let lastSegment := (segments.getLast?).getD ""
  let r := optimizeKey lastSegment
  if r.wasChanged then
    some { original := lastSegment, suggested := r.optimized,
           keyPath := joinPath (segments.dropLast ++ [r.optimized]) }
  else none

/-! ### Auxiliary predicates used in theorem statements -/

/-- Two adjacent characters are never both underscores. -/
def USep (a b : Char) : Prop := ¬(a = '_' ∧ b = '_')

instance (a b : Char) : Decidable (USep a b) :=
  inferInstanceAs (Decidable (¬(a = '_' ∧ b = '_')))

/-- Executable check that no two adjacent characters are both underscores
(used to discharge concrete `List.Chain' USep` goals by evaluation). -/
def chainUSepB : List Char → Bool
  | [] => true
  | [_] => true
  | a :: b :: rest => !(a == '_' && b == '_') && chainUSepB (b :: rest)

/-- The output shape `^[a-z][a-z0-9_]*$` on a character list. -/
def sanitizedShapeL : List Char → Bool
  | [] => false
  | c :: rest => (97 ≤ c.toNat && c.toNat ≤ 122) && rest.all isKeepChar

/-- The output shape `^[a-z][a-z0-9_]*$` of the sanitizer. -/
def sanitizedShape (s : String) : Bool :=
  sanitizedShapeL s.data

/-! ### Pure token trees

`buildDeveloperJson` grows each language subtree from `{}` by repeated
`setNestedValue` calls.  Under the path conditions below every reachable
tree is a *pure token tree*: each entry holds an object that is either a
literal `{ $value, $type }` token or, recursively, a pure group without a
`$value` key; keys are distinct, non-empty and never `$extensions`.  The
flattening of such a tree is computed leaf by leaf. -/

/-- A literal two-entry `{ $value, $type }` object. -/
def isTokB (es : Jobj) : Bool :=
  match es with
  | [(k1, _), (k2, _)] => k1 == "$value" && k2 == "$type"
  | _ => false

mutual

/-- Purity of a single entry value of a pure token tree. -/
def pureV : Json → Bool
  | .obj child => if hasKey child "$value" then isTokB child else pureO child
  | _ => false

/-- Purity of a tree: admissible distinct keys, every value pure. -/
def pureO : Jobj → Bool
  | [] => true
  | (k, v) :: rest =>
      (k != "") && (k != "$extensions") && (!hasKey rest k) && pureV v && pureO rest

end

mutual

/-- The leaf tokens below one entry of a pure tree, with joined paths. -/
def leafV (pre k : String) : Json → List (String × Jobj)
  | .obj child =>
      if hasKey child "$value" then [(joinKey pre k, child)]
      else leafO (joinKey pre k) child
  | _ => []

/-- All leaf tokens of a tree in entry order, with joined paths. -/
def leafO (pre : String) : Jobj → List (String × Jobj)
  | [] => []
  | (k, v) :: rest => leafV pre k v ++ leafO pre rest

end

/-- The row-map fold the flattener performs over the leaves of a pure
tree. -/
def foldUpd (lang : Lang) (rows : List (String × FlatRow)) :
    List (String × Jobj) → List (String × FlatRow)
  | [] => rows
  | (p, tok) :: rest =>
      foldUpd lang (assocSet rows p (updateLeafRow lang tok p (assocGet rows p))) rest

/-- A path is *fresh* in a tree: its final key is absent where the walk
ends, and every earlier segment either steps through an existing non-leaf
group or leaves the populated part of the tree. -/
def freshPathB (es : Jobj) : List String → Bool
  | [] => true
  | [k] => (assocGet es k).isNone
  | k :: rest =>
      match assocGet es k with
      | none => true
      | some (.obj child) => !hasKey child "$value" && freshPathB child rest
      | some _ => false

/-- A key-path segment the builder may traverse without ever turning a
group into a leaf or colliding with the flattener's skip rules. -/
def segOk (s : String) : Bool :=
  s != "" && s != "$value" && s != "$extensions"

/-- Neither segment list extends (or equals) the other. -/
def segsApart (a b : List String) : Bool :=
  !(a.isPrefixOf b) && !(b.isPrefixOf a)

/-- Pairwise apartness of the key paths of a row list. -/
def apartPaths : List Translation → Bool
  | [] => true
  | t :: rest =>
      rest.all (fun u => segsApart (splitPath t.key_path) (splitPath u.key_path)) &&
        apartPaths rest

/-- A row admissible for the restricted round trip: admissible segments, a
`token_type` that is not the falsy empty string, and at least one language
value (a fully null row leaves no trace in the built trees). -/
def rowOk (t : Translation) : Bool :=
  (splitPath t.key_path).all segOk &&
    (t.token_type != some "") &&
    (t.az_value.isSome || t.en_value.isSome || t.ru_value.isSome)

/-- Fold of `joinKey` along successive segments — the joined path the
flattener reconstructs for a leaf placed along those segments. -/
def joinFrom (pre : String) : List String → String
  | [] => pre
  | s :: rest => joinFrom (joinKey pre s) rest

/-- The `{ $value, $type }` token of the developer builder as an object
(`devToken t v = .obj (devTok t v)`). -/
def devTok (t : Translation) (v : String) : Jobj :=
  [("$value", .str v), ("$type", jsonOfOptStr (devTokenType t))]

/-- The expected leaf tokens of one language subtree built from a row
list. -/
def leafSpec (lang : Lang) (ts : List Translation) : List (String × Jobj) :=
  ts.filterMap (fun t => (t.getVal lang).map (fun v => (t.key_path, devTok t v)))

/-- The row the round trip is expected to reproduce: values verbatim,
`token_type` through the `"string"` → `"text"` rewrite, the figma variable
id cleared. -/
def roundRow (t : Translation) : FlatRow :=
  ⟨t.key_path, jsonOfOptStr t.az_value, jsonOfOptStr t.en_value, jsonOfOptStr t.ru_value,
    jsonOfOptStr (devTokenType t), .null⟩

/-- The per-language maybe-update of the reflattened row at one row's own
key path (`none` when the language carries no value). -/
def langStep (t : Translation) (lang : Lang) (r : Option FlatRow) : Option FlatRow :=
  match t.getVal lang with
  | none => r
  | some v => some (updateLeafRow lang (devTok t v) t.key_path r)

/-- The subtree of a built result at a top-level key, when it is an
object. -/
def asObj : Json → Option Jobj
  | .obj es => some es
  | _ => none

/-- The database round trip of a flattened row value: the `text` columns
keep a string and lose everything else (`null` stays `null`). -/
def optStrOfJson : Json → Option String
  | .str s => some s
  | _ => none

/-- A flattened row read back as a `Translation` row (the upload /
export glue passes the flattener's fields through `text` columns). -/
def translationOfRow (r : FlatRow) : Translation :=
  ⟨r.key_path, optStrOfJson r.az_value, optStrOfJson r.en_value, optStrOfJson r.ru_value,
    optStrOfJson r.token_type, optStrOfJson r.figma_variable_id⟩

end Croc

namespace Croc

/-! ## Theorems

### Character-level facts -/

theorem chain'_usep_of_b : ∀ l : List Char, chainUSepB l = true → List.Chain' USep l := by
  intro l
  induction l with
  | nil =>
      intro _
      exact List.chain'_nil
  | cons a rest ih =>
      cases rest with
      | nil =>
          intro _
          exact List.chain'_singleton a
      | cons b rest2 =>
          intro h
          unfold chainUSepB at h
          rw [Bool.and_eq_true] at h
          rw [List.chain'_cons]
          refine ⟨?_, ih h.2⟩
          rintro ⟨rfl, rfl⟩
          exact absurd h.1 (by decide)

theorem isKeepChar_cases {c : Char} (h : isKeepChar c = true) :
    (97 ≤ c.toNat ∧ c.toNat ≤ 122) ∨ (48 ≤ c.toNat ∧ c.toNat ≤ 57) ∨ c = '_' := by
  simpa [isKeepChar, Bool.or_eq_true, Bool.and_eq_true, decide_eq_true_eq,
    beq_iff_eq, or_assoc] using h

theorem keep_toLower {c : Char} (h : isKeepChar c = true) : c.toLower = c := by
  rcases isKeepChar_cases h with h1 | h1 | rfl
  · unfold Char.toLower
    rw [if_neg (by omega)]
  · unfold Char.toLower
    rw [if_neg (by omega)]
  · decide

theorem keep_not_ws {c : Char} (h : isKeepChar c = true) : c.isWhitespace = false := by
  cases hw : c.isWhitespace with
  | false => rfl
  | true =>
      exfalso
      have hc : c = ' ' ∨ c = '\t' ∨ c = '\r' ∨ c = '\n' := by
        simpa [Char.isWhitespace, or_assoc] using hw
      rcases hc with rfl | rfl | rfl | rfl <;> exact absurd h (by decide)

/-! ### `collapseRuns` -/

theorem mem_collapseRuns {p : Char → Bool} {rep : Char} {c : Char} :
    ∀ {b : Bool} {l : List Char}, c ∈ collapseRuns p rep b l → c = rep ∨ c ∈ l := by
  intro b l
  induction l generalizing b with
  | nil => simp [collapseRuns]
  | cons d rest ih =>
      intro h
      simp only [collapseRuns] at h
      by_cases hp : p d = true
      · rw [if_pos hp] at h
        by_cases hb : b = true
        · subst hb
          rw [if_pos rfl] at h
          rcases ih h with h1 | h1
          · exact Or.inl h1
          · exact Or.inr (List.mem_cons_of_mem _ h1)
        · rw [Bool.not_eq_true] at hb
          subst hb
          simp only [Bool.false_eq_true, if_false, List.mem_cons] at h
          rcases h with rfl | h
          · exact Or.inl rfl
          · rcases ih h with h1 | h1
            · exact Or.inl h1
            · exact Or.inr (List.mem_cons_of_mem _ h1)
      · rw [Bool.not_eq_true] at hp
        rw [if_neg (by simp [hp])] at h
        rcases List.mem_cons.mp h with rfl | h
        · exact Or.inr (List.mem_cons_self _ _)
        · rcases ih h with h1 | h1
          · exact Or.inl h1
          · exact Or.inr (List.mem_cons_of_mem _ h1)

theorem collapseRuns_of_not {p : Char → Bool} {rep : Char} {b : Bool} {l : List Char}
    (h : ∀ c ∈ l, p c = false) : collapseRuns p rep b l = l := by
  induction l generalizing b with
  | nil => rfl
  | cons d rest ih =>
      have hd : p d = false := h d (List.mem_cons_self _ _)
      simp only [collapseRuns, hd, Bool.false_eq_true, if_false]
      rw [ih (fun c hc => h c (List.mem_cons_of_mem _ hc))]

theorem collapseUnder_chain (l : List Char) :
    List.Chain' USep (collapseRuns underP '_' false l) ∧
    List.Chain' USep (collapseRuns underP '_' true l) ∧
    (collapseRuns underP '_' true l).head? ≠ some '_' := by
  induction l with
  | nil => simp [collapseRuns]
  | cons c rest ih =>
      obtain ⟨ihF, ihT, ihH⟩ := ih
      by_cases hc : c = '_'
      · subst hc
        have hp : underP '_' = true := by decide
        refine ⟨?_, ?_, ?_⟩
        · simp only [collapseRuns, hp, if_true, Bool.false_eq_true, if_false]
          rw [List.chain'_cons']
          refine ⟨?_, ihT⟩
          intro y hy
          rintro ⟨-, rfl⟩
          exact ihH (Option.mem_def.mp hy)
        · simpa only [collapseRuns, hp, if_true] using ihT
        · simpa only [collapseRuns, hp, if_true] using ihH
      · have hp : underP c = false := by simpa [underP] using hc
        refine ⟨?_, ?_, ?_⟩
        · simp only [collapseRuns, hp, Bool.false_eq_true, if_false]
          rw [List.chain'_cons']
          refine ⟨?_, ihF⟩
          intro y _
          rintro ⟨rfl, -⟩
          exact hc rfl
        · simp only [collapseRuns, hp, Bool.false_eq_true, if_false]
          rw [List.chain'_cons']
          refine ⟨?_, ihF⟩
          intro y _
          rintro ⟨rfl, -⟩
          exact hc rfl
        · simp only [collapseRuns, hp, Bool.false_eq_true, if_false, List.head?_cons]
          intro hh
          exact hc (Option.some.inj hh)

theorem collapseUnder_id (l : List Char) (h : List.Chain' USep l) :
    collapseRuns underP '_' false l = l ∧
    (l.head? ≠ some '_' → collapseRuns underP '_' true l = l) := by
  induction l with
  | nil => exact ⟨rfl, fun _ => rfl⟩
  | cons c rest ih =>
      rw [List.chain'_cons'] at h
      obtain ⟨hHead, hRest⟩ := h
      obtain ⟨ihF, ihT⟩ := ih hRest
      by_cases hc : c = '_'
      · subst hc
        have hp : underP '_' = true := by decide
        have hr : rest.head? ≠ some '_' := by
          intro hh
          exact hHead '_' (Option.mem_def.mpr hh) ⟨rfl, rfl⟩
        constructor
        · simp only [collapseRuns, hp, if_true, Bool.false_eq_true, if_false]
          rw [ihT hr]
        · intro hcontra
          exact absurd (show (('_' :: rest).head? = some '_') from rfl) hcontra
      · have hp : underP c = false := by simpa [underP] using hc
        constructor
        · simp only [collapseRuns, hp, Bool.false_eq_true, if_false]
          rw [ihF]
        · intro _
          simp only [collapseRuns, hp, Bool.false_eq_true, if_false]
          rw [ihF]

/-! ### `trimUnders` -/

theorem head?_dropWhile_not (p : Char → Bool) (l : List Char) {c : Char}
    (h : (l.dropWhile p).head? = some c) : p c = false := by
  induction l with
  | nil => simp at h
  | cons d rest ih =>
      by_cases hd : p d = true
      · rw [List.dropWhile_cons_of_pos hd] at h
        exact ih h
      · rw [List.dropWhile_cons_of_neg hd] at h
        rw [List.head?_cons, Option.some.injEq] at h
        subst h
        exact Bool.not_eq_true _ ▸ hd

theorem getLast?_of_suffix {l₁ l₂ : List Char} (h : l₁ <:+ l₂) (hne : l₁ ≠ []) :
    l₁.getLast? = l₂.getLast? := by
  obtain ⟨t, rfl⟩ := h
  rw [List.getLast?_append_of_ne_nil _ hne]

theorem trimUnders_within (l : List Char) : trimUnders l <:+: l := by
  have h1 : l.dropWhile underP <:+ l := List.dropWhile_suffix underP
  have h2 : (l.dropWhile underP).reverse.dropWhile underP <:+ (l.dropWhile underP).reverse :=
    List.dropWhile_suffix underP
  have h3 : trimUnders l <+: l.dropWhile underP := by
    unfold trimUnders
    rw [← List.reverse_suffix, List.reverse_reverse]
    exact h2
  exact List.IsInfix.trans ( List.IsPrefix.isInfix h3) ( List.IsSuffix.isInfix h1)

theorem trimUnders_head? (l : List Char) : (trimUnders l).head? ≠ some '_' := by
  intro h
  unfold trimUnders at h
  rw [List.head?_reverse] at h
  have hne : (l.dropWhile underP).reverse.dropWhile underP ≠ [] := by
    intro he
    rw [he] at h
    simp at h
  have := getLast?_of_suffix (List.dropWhile_suffix underP) hne
  rw [h, List.getLast?_reverse] at this
  have := head?_dropWhile_not underP l this.symm
  simp [underP] at this

theorem trimUnders_getLast? (l : List Char) : (trimUnders l).getLast? ≠ some '_' := by
  intro h
  unfold trimUnders at h
  rw [List.getLast?_reverse] at h
  have := head?_dropWhile_not underP _ h
  simp [underP] at this

theorem dropWhile_eq_self_of_head {p : Char → Bool} {l : List Char}
    (h : ∀ c ∈ l.head?, p c = false) : l.dropWhile p = l := by
  cases l with
  | nil => rfl
  | cons c rest =>
      rw [List.dropWhile_cons_of_neg]
      rw [h c (by simp)]
      simp

theorem trimUnders_id (l : List Char) (h1 : l.head? ≠ some '_')
    (h2 : l.getLast? ≠ some '_') : trimUnders l = l := by
  unfold trimUnders
  have e1 : l.dropWhile underP = l := by
    apply dropWhile_eq_self_of_head
    intro c hc
    rcases hu : underP c with _ | _
    · rfl
    · exfalso
      have hcu : c = '_' := by simpa [underP] using hu
      subst hcu
      exact h1 (Option.mem_def.mp hc)
  rw [e1]
  have e2 : l.reverse.dropWhile underP = l.reverse := by
    apply dropWhile_eq_self_of_head
    intro c hc
    rcases hu : underP c with _ | _
    · rfl
    · exfalso
      have hcu : c = '_' := by simpa [underP] using hu
      subst hcu
      rw [List.head?_reverse] at hc
      exact h2 (Option.mem_def.mp hc)
  rw [e2, List.reverse_reverse]

/-! ### Shape of `cleanup` -/

theorem cleanup_keep (s : String) : ∀ c ∈ cleanup s, isKeepChar c = true := by
  intro c hc
  have hc2 : c ∈ collapseRuns underP '_' false
      ((collapseRuns Char.isWhitespace '_' false (s.data.map Char.toLower)).filter isKeepChar) :=
    (trimUnders_within _).sublist.mem hc
  rcases mem_collapseRuns hc2 with rfl | hc3
  · decide
  · exact (List.mem_filter.mp hc3).2

theorem cleanup_chain (s : String) : List.Chain' USep (cleanup s) :=
  List.Chain'.infix (collapseUnder_chain _).1 (trimUnders_within _)

theorem cleanup_head (s : String) : (cleanup s).head? ≠ some '_' :=
  trimUnders_head? _

theorem cleanup_last (s : String) : (cleanup s).getLast? ≠ some '_' :=
  trimUnders_getLast? _

theorem cleanup_id (l : List Char) (hK : ∀ c ∈ l, isKeepChar c = true)
    (hC : List.Chain' USep l) (hH : l.head? ≠ some '_')
    (hL : l.getLast? ≠ some '_') : cleanup (⟨l⟩ : String) = l := by
  unfold cleanup
  have hdata : (⟨l⟩ : String).data = l := rfl
  rw [hdata]
  have hlow : l.map Char.toLower = l := by
    conv_rhs => rw [← List.map_id l]
    exact List.map_congr_left (fun c hc => keep_toLower (hK c hc))
  rw [hlow]
  rw [collapseRuns_of_not (fun c hc => keep_not_ws (hK c hc))]
  rw [List.filter_eq_self.mpr hK]
  rw [(collapseUnder_id l hC).1]
  exact trimUnders_id l hH hL

/-! ### The reserved-word set never contains the prefixed fixes -/

theorem forb_take4 :
    FORBIDDEN_KEYWORDS.all (fun s => !(s.data.take 4 == "fix_".data)) = true := by decide

theorem forb_take11 :
    FORBIDDEN_KEYWORDS.all (fun s => !(s.data.take 11 == "common_fix_".data)) = true := by decide

theorem not_forb_fix (r : List Char) :
    FORBIDDEN_KEYWORDS.contains (⟨"fix_".data ++ r⟩ : String) = false := by
  by_contra h
  rw [Bool.not_eq_false] at h
  have hmem : (⟨"fix_".data ++ r⟩ : String) ∈ FORBIDDEN_KEYWORDS := by
    simpa using h
  have h4 := List.all_eq_true.mp forb_take4 _ hmem
  rw [Bool.not_eq_eq_eq_not, Bool.not_true, beq_eq_false_iff_ne] at h4
  apply h4
  show ("fix_".data ++ r).take 4 = "fix_".data
  rw [show (4 : Nat) = ("fix_".data).length from rfl]
  exact List.take_left _ _

theorem not_forb_common (r : List Char) :
    FORBIDDEN_KEYWORDS.contains (⟨"common_fix_".data ++ r⟩ : String) = false := by
  by_contra h
  rw [Bool.not_eq_false] at h
  have hmem : (⟨"common_fix_".data ++ r⟩ : String) ∈ FORBIDDEN_KEYWORDS := by
    simpa using h
  have h11 := List.all_eq_true.mp forb_take11 _ hmem
  rw [Bool.not_eq_eq_eq_not, Bool.not_true, beq_eq_false_iff_ne] at h11
  apply h11
  show ("common_fix_".data ++ r).take 11 = "common_fix_".data
  rw [show (11 : Nat) = ("common_fix_".data).length from rfl]
  exact List.take_left _ _

/-! ### Case analysis of `optimizeKey` -/

theorem optimizeKey_data (s : String) :
    ((optimizeKey s).optimized.data = cleanup s ∧ cleanup s ≠ [] ∧
      (∀ c ∈ (cleanup s).head?, isAsciiDigit c = false) ∧
      FORBIDDEN_KEYWORDS.contains (⟨cleanup s⟩ : String) = false) ∨
    (optimizeKey s).optimized.data = "fix_".data ++ cleanup s ∨
    (optimizeKey s).optimized.data = "common_fix_".data ++ cleanup s ∨
    (optimizeKey s).optimized.data = "common_fix_".data ++ ("fix_".data ++ cleanup s) := by
  simp only [optimizeKey]
  split
  next h1 =>
    split
    next h2 =>
      right; right; right; rfl
    next h2 =>
      right; left; rfl
  next h1 =>
    split
    next h2 =>
      right; right; left; rfl
    next h2 =>
      left
      rw [Bool.or_eq_true, not_or] at h1
      obtain ⟨hne, hd⟩ := h1
      refine ⟨rfl, ?_, ?_, ?_⟩
      · intro hnil
        exact hne (by rw [hnil]; rfl)
      · intro c hc
        cases hcl : cleanup s with
        | nil =>
            rw [hcl] at hc
            simp at hc
        | cons d rest =>
            rw [hcl] at hc
            rw [List.head?_cons, Option.mem_def, Option.some.injEq] at hc
            subst hc
            rw [hcl] at hd
            simpa using hd
      · simpa using h2

/-! ### Shape and idempotence of the sanitizer output -/

theorem sanitizedShapeL_append_keep {a r : List Char}
    (ha : sanitizedShapeL a = true) (hr : ∀ c ∈ r, isKeepChar c = true) :
    sanitizedShapeL (a ++ r) = true := by
  cases a with
  | nil => simp [sanitizedShapeL] at ha
  | cons c rest =>
      rw [List.cons_append]
      unfold sanitizedShapeL at ha ⊢
      rw [Bool.and_eq_true] at ha ⊢
      refine ⟨ha.1, ?_⟩
      rw [List.all_append, Bool.and_eq_true]
      refine ⟨ha.2, ?_⟩
      rw [List.all_eq_true]
      exact hr

theorem optimizeKey_sanitizedShape (s : String) :
    sanitizedShape (optimizeKey s).optimized = true := by
  have hK := cleanup_keep s
  unfold sanitizedShape
  rcases optimizeKey_data s with ⟨hdat, hne, hdig, -⟩ | hdat | hdat | hdat
  · rw [hdat]
    cases hcl : cleanup s with
    | nil => exact absurd hcl hne
    | cons c rest =>
        have hcK : isKeepChar c = true := hK c (by rw [hcl]; exact List.mem_cons_self _ _)
        have hcH : c ≠ '_' := by
          intro hcu
          subst hcu
          have := cleanup_head s
          rw [hcl] at this
          exact this rfl
        have hcD : isAsciiDigit c = false := hdig c (by rw [hcl]; simp)
        unfold sanitizedShapeL
        rw [Bool.and_eq_true]
        constructor
        · rcases isKeepChar_cases hcK with hr | hr | hr
          · simp [hr.1, hr.2]
          · exfalso
            unfold isAsciiDigit at hcD
            rw [Bool.and_eq_false_iff] at hcD
            rcases hcD with hb | hb <;> rw [decide_eq_false_iff_not] at hb <;> omega
          · exact absurd hr hcH
        · rw [List.all_eq_true]
          intro x hx
          exact hK x (by rw [hcl]; exact List.mem_cons_of_mem _ hx)
  · rw [hdat]
    exact sanitizedShapeL_append_keep (by decide) hK
  · rw [hdat]
    exact sanitizedShapeL_append_keep (by decide) hK
  · rw [hdat, ← List.append_assoc]
    exact sanitizedShapeL_append_keep (by decide) hK

/-- The cleanup pass is the identity on a clean-shaped marker list followed
by the cleanup of an arbitrary string. -/
theorem cleanup_pre_append (P : List Char) (s : String)
    (hPk : ∀ c ∈ P, isKeepChar c = true)
    (hPc : List.Chain' USep P)
    (hPh : ∀ c ∈ P.head?, c ≠ '_')
    (hne : cleanup s ≠ []) :
    cleanup (⟨P ++ cleanup s⟩ : String) = P ++ cleanup s := by
  apply cleanup_id
  · intro c hc
    rcases List.mem_append.mp hc with hc | hc
    · exact hPk c hc
    · exact cleanup_keep s c hc
  · rw [List.chain'_append]
    refine ⟨hPc, cleanup_chain s, ?_⟩
    intro x _ y hy
    rintro ⟨-, rfl⟩
    exact cleanup_head s (Option.mem_def.mp hy)
  · cases P with
    | nil => exact cleanup_head s
    | cons c rest =>
        rw [List.cons_append, List.head?_cons]
        intro hh
        exact hPh c (by simp) (Option.some.inj hh)
  · rw [List.getLast?_append_of_ne_nil _ hne]
    exact cleanup_last s

/-- `optimizeKey` is the identity on a string that is a fixed point of
cleanup, is non-empty, does not start with a digit and is not reserved. -/
theorem optimizeKey_of_fixed (l : List Char)
    (hclean : cleanup (⟨l⟩ : String) = l)
    (hne : l ≠ [])
    (hdig : ∀ c ∈ l.head?, isAsciiDigit c = false)
    (hforb : FORBIDDEN_KEYWORDS.contains (⟨l⟩ : String) = false) :
    (optimizeKey (⟨l⟩ : String)).optimized = (⟨l⟩ : String) := by
  cases l with
  | nil => exact absurd rfl hne
  | cons c rest =>
      have hdigc : isAsciiDigit c = false := hdig c (by simp)
      simp only [optimizeKey]
      rw [hclean]
      simp only [List.isEmpty_cons, hdigc, Bool.or_false, Bool.false_eq_true, if_false]
      rw [hforb]
      simp only [Bool.false_eq_true, if_false]

/-- C2 (amended): the key sanitizer is idempotent on every input whose
cleanup pass is non-empty: `optimizeKey (optimizeKey s).optimized` returns
`(optimizeKey s).optimized` unchanged.  (For inputs that reduce to the empty
string the first pass yields the literal `fix_` and a second pass trims it
to `fix`, so idempotence fails exactly there — see the counterexample.) -/
theorem optimizeKey_fixpoint (s : String) (h : cleanup s ≠ []) :
    (optimizeKey (optimizeKey s).optimized).optimized = (optimizeKey s).optimized := by
  have hK := cleanup_keep s
  have hdig2 : ∀ c ∈ ("fix_".data ++ cleanup s).head?, isAsciiDigit c = false := by
    intro c hc
    rw [show ("fix_".data ++ cleanup s).head? = some 'f' from rfl] at hc
    rw [Option.mem_def, Option.some.injEq] at hc
    subst hc
    decide
  have hdig3 : ∀ P2 : List Char,
      ∀ c ∈ ("common_fix_".data ++ P2).head?, isAsciiDigit c = false := by
    intro P2 c hc
    rw [show ("common_fix_".data ++ P2).head? = some 'c' from rfl] at hc
    rw [Option.mem_def, Option.some.injEq] at hc
    subst hc
    decide
  rcases optimizeKey_data s with ⟨hdat, -, hdig, hforb⟩ | hdat | hdat | hdat
  · have hXeq : (optimizeKey s).optimized = (⟨cleanup s⟩ : String) := String.ext hdat
    rw [hXeq]
    exact optimizeKey_of_fixed (cleanup s)
      (cleanup_pre_append [] s (by simp) (by simp) (by simp) h) h hdig
      (by simpa using hforb)
  · have hXeq : (optimizeKey s).optimized = (⟨"fix_".data ++ cleanup s⟩ : String) :=
      String.ext hdat
    rw [hXeq]
    exact optimizeKey_of_fixed ("fix_".data ++ cleanup s)
      (cleanup_pre_append "fix_".data s (by decide) (chain'_usep_of_b _ (by decide))
        (by decide) h)
      (by simp) hdig2 (not_forb_fix _)
  · have hXeq : (optimizeKey s).optimized = (⟨"common_fix_".data ++ cleanup s⟩ : String) :=
      String.ext hdat
    rw [hXeq]
    exact optimizeKey_of_fixed ("common_fix_".data ++ cleanup s)
      (cleanup_pre_append "common_fix_".data s (by decide) (chain'_usep_of_b _ (by decide))
        (by decide) h)
      (by simp) (hdig3 _) (not_forb_common _)
  · have hXeq : (optimizeKey s).optimized =
        (⟨"common_fix_".data ++ ("fix_".data ++ cleanup s)⟩ : String) := String.ext hdat
    rw [hXeq]
    have hassoc : "common_fix_".data ++ ("fix_".data ++ cleanup s) =
        ("common_fix_".data ++ "fix_".data) ++ cleanup s := by
      rw [List.append_assoc]
    have hclean : cleanup (⟨"common_fix_".data ++ ("fix_".data ++ cleanup s)⟩ : String) =
        "common_fix_".data ++ ("fix_".data ++ cleanup s) := by
      rw [show (⟨"common_fix_".data ++ ("fix_".data ++ cleanup s)⟩ : String) =
          (⟨("common_fix_".data ++ "fix_".data) ++ cleanup s⟩ : String) from
        congrArg _ hassoc, hassoc]
      exact cleanup_pre_append ("common_fix_".data ++ "fix_".data) s
        (by decide) (chain'_usep_of_b _ (by decide)) (by decide) h
    exact optimizeKey_of_fixed _ hclean (by simp) (hdig3 _) (not_forb_common _)

/-- C2 (counterexample): the sanitizer is not idempotent as claimed: on the
empty string the first pass yields `fix_` but the second pass yields `fix`. -/
theorem optimizeKey_empty_not_idempotent :
    (optimizeKey (optimizeKey "").optimized).optimized ≠ (optimizeKey "").optimized := by
  decide

/-- C2 (witness): the amended idempotence theorem applied at a concrete
input with non-empty cleanup. -/
theorem optimizeKey_fixpoint_witness :
    cleanup "Hello World" ≠ [] ∧
      (optimizeKey (optimizeKey "Hello World").optimized).optimized =
        (optimizeKey "Hello World").optimized :=
  ⟨by decide, optimizeKey_fixpoint "Hello World" (by decide)⟩

/-- C6: for every string `s`, `(optimizeKey s).optimized` matches
`^[a-z][a-z0-9_]*$`, or is the literal `fix_` (the empty-cleanup case —
which in fact also matches the shape, so the left disjunct always holds). -/
theorem optimizeKey_output_shape (s : String) :
    sanitizedShape (optimizeKey s).optimized = true ∨
      (optimizeKey s).optimized = "fix_" :=
  Or.inl (optimizeKey_sanitizedShape s)


/-! ### Splitting and joining paths -/

theorem splitConsSeg_ne_nil (c : Char) (ss : List (List Char)) : splitConsSeg c ss ≠ [] := by
  cases ss with
  | nil => simp [splitConsSeg]
  | cons s ss2 =>
      rw [show splitConsSeg c (s :: ss2) =
        if c = '.' then [] :: s :: ss2 else (c :: s) :: ss2 from rfl]
      by_cases hc : c = '.'
      · rw [if_pos hc]
        simp
      · rw [if_neg hc]
        simp

theorem splitSegsL_ne_nil (l : List Char) : splitSegsL l ≠ [] := by
  cases l with
  | nil => simp [splitSegsL]
  | cons c rest => exact splitConsSeg_ne_nil c (splitSegsL rest)

theorem joinSegsL_splitSegsL (l : List Char) : joinSegsL (splitSegsL l) = l := by
  induction l with
  | nil => rfl
  | cons c rest ih =>
      show joinSegsL (splitConsSeg c (splitSegsL rest)) = c :: rest
      cases h : splitSegsL rest with
      | nil => exact absurd h (splitSegsL_ne_nil rest)
      | cons s ss =>
          rw [h] at ih
          rw [show splitConsSeg c (s :: ss) =
            if c = '.' then [] :: s :: ss else (c :: s) :: ss from rfl]
          by_cases hc : c = '.'
          · rw [if_pos hc, hc]
            cases ss with
            | nil => simpa [joinSegsL] using ih
            | cons s2 ss2 => simpa [joinSegsL] using ih
          · rw [if_neg hc]
            cases ss with
            | nil =>
                simp only [joinSegsL] at ih ⊢
                rw [ih]
            | cons s2 ss2 =>
                simp only [joinSegsL] at ih ⊢
                rw [List.cons_append, ih]

theorem splitSegsL_append_dot (l1 l2 : List Char) :
    splitSegsL (l1 ++ '.' :: l2) = splitSegsL l1 ++ splitSegsL l2 := by
  induction l1 with
  | nil =>
      show splitConsSeg '.' (splitSegsL l2) = [[]] ++ splitSegsL l2
      cases h : splitSegsL l2 with
      | nil => exact absurd h (splitSegsL_ne_nil l2)
      | cons s ss =>
          rw [show splitConsSeg '.' (s :: ss) =
            if ('.' : Char) = '.' then [] :: s :: ss else ('.' :: s) :: ss from rfl]
          rw [if_pos rfl]
          simp
  | cons c rest ih =>
      show splitConsSeg c (splitSegsL (rest ++ '.' :: l2)) =
        splitConsSeg c (splitSegsL rest) ++ splitSegsL l2
      rw [ih]
      cases h : splitSegsL rest with
      | nil => exact absurd h (splitSegsL_ne_nil rest)
      | cons s ss =>
          show splitConsSeg c (s :: (ss ++ splitSegsL l2)) =
            splitConsSeg c (s :: ss) ++ splitSegsL l2
          rw [show splitConsSeg c (s :: (ss ++ splitSegsL l2)) =
            if c = '.' then [] :: s :: (ss ++ splitSegsL l2)
            else (c :: s) :: (ss ++ splitSegsL l2) from rfl]
          rw [show splitConsSeg c (s :: ss) =
            if c = '.' then [] :: s :: ss else (c :: s) :: ss from rfl]
          by_cases hc : c = '.'
          · rw [if_pos hc, if_pos hc]
            simp
          · rw [if_neg hc, if_neg hc]
            simp

theorem splitSegsL_of_dot_free (l : List Char) (h : l.contains '.' = false) :
    splitSegsL l = [l] := by
  induction l with
  | nil => rfl
  | cons c rest ih =>
      rw [List.contains_cons, Bool.or_eq_false_iff] at h
      obtain ⟨hc, hrest⟩ := h
      show splitConsSeg c (splitSegsL rest) = [c :: rest]
      rw [ih hrest]
      rw [show splitConsSeg c [rest] =
        if c = '.' then [] :: rest :: [] else (c :: rest) :: [] from rfl]
      have hne : c ≠ '.' := Ne.symm (beq_eq_false_iff_ne.mp hc)
      rw [if_neg hne]

theorem splitPath_ne_nil (p : String) : splitPath p ≠ [] := by
  unfold splitPath
  intro h
  exact splitSegsL_ne_nil p.data (List.map_eq_nil_iff.mp h)

theorem joinPath_splitPath (p : String) : joinPath (splitPath p) = p := by
  unfold joinPath splitPath
  rw [List.map_map]
  have hmap : (splitSegsL p.data).map (String.data ∘ fun l => (⟨l⟩ : String)) =
      (splitSegsL p.data).map id := List.map_congr_left (fun a _ => rfl)
  rw [hmap, List.map_id]
  exact String.ext (joinSegsL_splitSegsL p.data)

theorem splitPath_append_dot (p last : String) (h : last.data.contains '.' = false) :
    splitPath (p ++ "." ++ last) = splitPath p ++ [last] := by
  unfold splitPath
  have hdata : (p ++ "." ++ last).data = p.data ++ '.' :: last.data := by
    rw [String.data_append, String.data_append, List.append_assoc]
    rfl
  rw [hdata, splitSegsL_append_dot, splitSegsL_of_dot_free last.data h]
  rw [List.map_append]
  rfl

theorem joinSegsL_concat (ss : List (List Char)) (x : List Char) (h : ss ≠ []) :
    joinSegsL (ss ++ [x]) = joinSegsL ss ++ '.' :: x := by
  induction ss with
  | nil => exact absurd rfl h
  | cons s rest ih =>
      cases rest with
      | nil => rfl
      | cons s2 rest2 =>
          show joinSegsL (s :: ((s2 :: rest2) ++ [x])) =
            (s ++ '.' :: joinSegsL (s2 :: rest2)) ++ '.' :: x
          have hx : joinSegsL (s :: ((s2 :: rest2) ++ [x])) =
              s ++ '.' :: joinSegsL ((s2 :: rest2) ++ [x]) := by
            rw [List.cons_append]
            rfl
          rw [hx, ih (by simp), List.append_assoc]
          rfl

theorem joinPath_concat (p : String) (x : String) :
    joinPath (splitPath p ++ [x]) = p ++ "." ++ x := by
  unfold joinPath splitPath
  rw [List.map_append, List.map_map]
  have hmap : (splitSegsL p.data).map (String.data ∘ fun l => (⟨l⟩ : String)) =
      (splitSegsL p.data).map id := List.map_congr_left (fun a _ => rfl)
  rw [hmap, List.map_id]
  show (⟨joinSegsL (splitSegsL p.data ++ [x.data])⟩ : String) = p ++ "." ++ x
  rw [joinSegsL_concat _ _ (splitSegsL_ne_nil p.data), joinSegsL_splitSegsL]
  apply String.ext
  show p.data ++ '.' :: x.data = (p ++ "." ++ x).data
  rw [String.data_append, String.data_append, List.append_assoc]
  rfl

/-! ### The key-path linter -/

/-- C7: `analyzeKeyIssues` sanitizes only the last segment of a dotted key
path: it returns `none` exactly when the last segment is already sanitized,
and otherwise an issue whose `keyPath` replaces only the last segment,
preserving all ancestor segments verbatim. -/
theorem analyzeKeyIssues_last_segment (pre last : String)
    (h : last.data.contains '.' = false) :
    analyzeKeyIssues (pre ++ "." ++ last) =
      if (optimizeKey last).optimized = last then none
      else some ⟨last, (optimizeKey last).optimized,
        pre ++ "." ++ (optimizeKey last).optimized⟩ := by
  simp only [analyzeKeyIssues]
  rw [splitPath_append_dot pre last h]
  rw [List.getLast?_concat, List.dropLast_concat]
  simp only [Option.getD_some]
  have hwc0 : (optimizeKey last).wasChanged = (last != (optimizeKey last).optimized) := rfl
  by_cases heq : (optimizeKey last).optimized = last
  · rw [if_pos heq]
    have hwc : (optimizeKey last).wasChanged = false := by
      rw [hwc0, bne_eq_false_iff_eq]
      exact heq.symm
    rw [hwc]
    simp
  · rw [if_neg heq]
    have hwc : (optimizeKey last).wasChanged = true := by
      rw [hwc0, bne_iff_ne]
      exact fun hh => heq hh.symm
    rw [hwc]
    simp only [if_true]
    rw [joinPath_concat]

/-- C7 (witness): the concrete example from the specification —
`analyzeKeyIssues "group.type"` suggests `common_fix_type` and replaces
only the last segment of the key path. -/
theorem analyzeKeyIssues_last_segment_witness :
    ("type" : String).data.contains '.' = false ∧
      analyzeKeyIssues "group.type" =
        some ⟨"type", "common_fix_type", "group.common_fix_type"⟩ := by
  refine ⟨by decide, ?_⟩
  rw [show ("group.type" : String) = ("group" : String) ++ "." ++ "type" from by decide]
  rw [analyzeKeyIssues_last_segment "group" "type" (by decide)]
  decide

/-! ### The flattener and the figma variable id merge -/

/-- C1 (counterexample): the same path `a` is a leaf in both the az and en
trees, with `com.figma` variableIds `v1` and `v2`; the resulting row holds
`v2` — the variable id of the *last* occurrence in processing order, not
the first as claimed. -/
theorem figma_variable_id_not_first_wins :
    (flattenJsons
        (some [("a", .obj [("$value", .str "X"),
          ("$extensions", .obj [("com.figma", .obj [("variableId", .str "v1")])])])])
        (some [("a", .obj [("$value", .str "Y"),
          ("$extensions", .obj [("com.figma", .obj [("variableId", .str "v2")])])])])
        none).1 =
      [⟨"a", .str "X", .str "Y", .null, .null, .str "v2"⟩] := by
  decide

/-- C1 (amended): when the same path appears as a leaf token in more than
one language tree, `figma_variable_id` follows a last-truthy-wins rule
(`newId || existing`): a later occurrence carrying a truthy variableId
replaces the stored one, and an occurrence without a variableId leaves the
stored one unchanged. -/
theorem figma_variable_id_last_truthy_wins (k val1 val2 v1 v2 : String)
    (hk : k ≠ "$extensions") (hv1 : v1 ≠ "") (hv2 : v2 ≠ "") :
    (∀ r ∈ (flattenJsons
        (some [(k, .obj [("$value", .str val1),
          ("$extensions", .obj [("com.figma", .obj [("variableId", .str v1)])])])])
        (some [(k, .obj [("$value", .str val2),
          ("$extensions", .obj [("com.figma", .obj [("variableId", .str v2)])])])])
        none).1, r.figma_variable_id = .str v2) ∧
    (∀ r ∈ (flattenJsons
        (some [(k, .obj [("$value", .str val1),
          ("$extensions", .obj [("com.figma", .obj [("variableId", .str v1)])])])])
        (some [(k, .obj [("$value", .str val2)])])
        none).1, r.figma_variable_id = .str v1) := by
  have hkb : (k == "$extensions") = false := beq_eq_false_iff_ne.mpr hk
  have hkk : (k == k) = true := beq_self_eq_true k
  have hv1b : (v1 != "") = true := bne_iff_ne.mpr hv1
  have hv2b : (v2 != "") = true := bne_iff_ne.mpr hv2
  constructor
  · intro r hr
    simp only [flattenJsons, runFlatten, flattenEntries, flattenEntry, hkb,
      Bool.false_eq_true, if_false, joinKey, hasKey, getKey, getProp, assocGet, assocSet,
      updateLeafRow, truthy, FlatRow.setVal, FlatRow.blank, List.find?, List.any,
      hkk, hv1b, hv2b] at hr
    simp at hr
    rw [hr]
    simp [hv2]
  · intro r hr
    simp only [flattenJsons, runFlatten, flattenEntries, flattenEntry, hkb,
      Bool.false_eq_true, if_false, joinKey, hasKey, getKey, getProp, assocGet, assocSet,
      updateLeafRow, truthy, FlatRow.setVal, FlatRow.blank, List.find?, List.any,
      hkk, hv1b, hv2b] at hr
    simp at hr
    rw [hr]
    simp [hv1]

/-- C1 (witness): the amended last-truthy-wins rule at concrete inputs. -/
theorem figma_variable_id_last_truthy_wins_witness :
    ("a" : String) ≠ "$extensions" ∧ ("v1" : String) ≠ "" ∧ ("v2" : String) ≠ "" ∧
    (∀ r ∈ (flattenJsons
        (some [("a", .obj [("$value", .str "X"),
          ("$extensions", .obj [("com.figma", .obj [("variableId", .str "v1")])])])])
        (some [("a", .obj [("$value", .str "Y"),
          ("$extensions", .obj [("com.figma", .obj [("variableId", .str "v2")])])])])
        none).1, r.figma_variable_id = .str "v2") ∧
    (∀ r ∈ (flattenJsons
        (some [("a", .obj [("$value", .str "X"),
          ("$extensions", .obj [("com.figma", .obj [("variableId", .str "v1")])])])])
        (some [("a", .obj [("$value", .str "Y")])])
        none).1, r.figma_variable_id = .str "v1") := by
  have hmain := figma_variable_id_last_truthy_wins "a" "X" "Y" "v1" "v2"
    (by decide) (by decide) (by decide)
  exact ⟨by decide, by decide, by decide, hmain.1, hmain.2⟩

/-! ### Unfolding equations for the mutual flattener -/

theorem flattenEntry_skip_ext (lang : Lang) (pre k : String) (v : Json) (st : FlatState)
    (hk : (k == "$extensions") = true) : flattenEntry lang pre k v st = st := by
  rw [flattenEntry.eq_def, if_pos hk]

theorem flattenEntry_leaf (lang : Lang) (pre k : String) (child : Jobj) (st : FlatState)
    (hk : (k == "$extensions") = false)
    (hval : hasKey child "$value" = true) :
    flattenEntry lang pre k (.obj child) st =
      { st with rows := (assocSet st.rows (joinKey pre k)
          (updateLeafRow lang child (joinKey pre k) (assocGet st.rows (joinKey pre k)))) } := by
  rw [flattenEntry.eq_def, if_neg (by rw [hk]; exact Bool.false_ne_true)]
  simp only [hval, if_true]

theorem flattenEntry_group (lang : Lang) (pre k : String) (child : Jobj) (st : FlatState)
    (hk : (k == "$extensions") = false)
    (hval : hasKey child "$value" = false) :
    flattenEntry lang pre k (.obj child) st =
      flattenEntries lang (joinKey pre k) child
        (if truthy (getKey child "$extensions") then
          { st with exts := (assocSet st.exts (joinKey pre k)
              ⟨joinKey pre k, getKey child "$extensions"⟩) }
        else st) := by
  rw [flattenEntry.eq_def, if_neg (by rw [hk]; exact Bool.false_ne_true)]
  simp only [hval, Bool.false_eq_true, if_false]

theorem flattenEntry_arr (lang : Lang) (pre k : String) (elems : List Json) (st : FlatState)
    (hk : (k == "$extensions") = false) :
    flattenEntry lang pre k (.arr elems) st =
      flattenElems lang (joinKey pre k) 0 elems st := by
  rw [flattenEntry.eq_def, if_neg (by rw [hk]; exact Bool.false_ne_true)]

theorem flattenEntries_cons (lang : Lang) (pre : String) (e : String × Json)
    (rest : List (String × Json)) (st : FlatState) :
    flattenEntries lang pre (e :: rest) st =
      flattenEntries lang pre rest (flattenEntry lang pre e.1 e.2 st) := by
  rw [flattenEntries.eq_def]

theorem flattenElems_cons (lang : Lang) (pre : String) (i : Nat) (x : Json)
    (rest : List Json) (st : FlatState) :
    flattenElems lang pre i (x :: rest) st =
      flattenElems lang pre (i + 1) rest (flattenEntry lang pre (toString i) x st) := by
  rw [flattenElems.eq_def]

/-! ### Non-empty key paths in the flattener -/

theorem mem_assocSet {α : Type} {m : List (String × α)} {k : String} {v : α} {e : String × α}
    (h : e ∈ assocSet m k v) : e = (k, v) ∨ e ∈ m := by
  induction m with
  | nil =>
      simp [assocSet] at h
      exact Or.inl h
  | cons d rest ih =>
      unfold assocSet at h
      by_cases hd : (d.1 == k) = true
      · rw [if_pos hd] at h
        rcases List.mem_cons.mp h with rfl | h
        · exact Or.inl rfl
        · exact Or.inr (List.mem_cons_of_mem _ h)
      · rw [if_neg hd] at h
        rcases List.mem_cons.mp h with rfl | h
        · exact Or.inr (List.mem_cons_self _ _)
        · rcases ih h with h1 | h1
          · exact Or.inl h1
          · exact Or.inr (List.mem_cons_of_mem _ h1)

theorem assocGet_mem {α : Type} {m : List (String × α)} {k : String} {v : α}
    (h : assocGet m k = some v) : ∃ e ∈ m, e.2 = v := by
  unfold assocGet at h
  rw [Option.map_eq_some'] at h
  obtain ⟨e, he, rfl⟩ := h
  exact ⟨e, List.mem_of_find?_eq_some he, rfl⟩

theorem updateLeafRow_key_path (lang : Lang) (child : Jobj) (path : String)
    (old : Option FlatRow) :
    (updateLeafRow lang child path old).key_path =
      (old.getD (FlatRow.blank path)).key_path := by
  unfold updateLeafRow
  cases lang <;> split <;> split <;> rfl

theorem joinKey_ne_empty {pre k : String} (h : k ≠ "" ∨ pre ≠ "") :
    joinKey pre k ≠ "" := by
  unfold joinKey
  by_cases hp : pre = ""
  · rw [if_pos (by simpa using hp)]
    rcases h with h | h
    · exact h
    · exact absurd hp h
  · rw [if_neg (by simpa using hp)]
    intro hc
    have hd := congrArg String.data hc
    rw [String.data_append, String.data_append] at hd
    simp at hd

theorem flattenEntries_preserves_ne (lang : Lang) :
    ∀ (pre : String) (es : List (String × Json)) (st : FlatState),
      RowsNE st → noEmptyKeysO es = true → RowsNE (flattenEntries lang pre es st) := by
  refine flattenEntries.induct lang
    (fun pre k v st => RowsNE st → (k ≠ "" ∨ pre ≠ "") → noEmptyKeysJ v = true →
      RowsNE (flattenEntry lang pre k v st))
    (fun pre i xs st => RowsNE st → pre ≠ "" → noEmptyKeysL xs = true →
      RowsNE (flattenElems lang pre i xs st))
    (fun pre es st => RowsNE st → noEmptyKeysO es = true →
      RowsNE (flattenEntries lang pre es st))
    ?_ ?_ ?_ ?_ ?_ ?_ ?_ ?_ ?_
  · intro t pre k st hk hNE _ _
    rw [flattenEntry_skip_ext lang pre k t st hk]
    exact hNE
  · intro pre k st hk child hval hNE hor _
    rw [Bool.not_eq_true] at hk
    rw [flattenEntry_leaf lang pre k child st hk hval]
    intro e he
    rcases mem_assocSet he with rfl | he2
    · show (updateLeafRow lang child (joinKey pre k) (assocGet st.rows (joinKey pre k))).key_path ≠ ""
      rw [updateLeafRow_key_path]
      cases hget : assocGet st.rows (joinKey pre k) with
      | none => exact joinKey_ne_empty hor
      | some r =>
          obtain ⟨e2, he2, rfl⟩ := assocGet_mem hget
          exact hNE e2 he2
    · exact hNE e he2
  · intro pre k st hk child cur hval st1 ih hNE hor hkeys
    rw [Bool.not_eq_true] at hk hval
    rw [flattenEntry_group lang pre k child st hk hval]
    refine ih ?_ (by simpa [noEmptyKeysJ] using hkeys)
    intro e he
    apply hNE e
    have hrows : st1.rows = st.rows := by
      show ((if truthy (getKey child "$extensions") = true then
          { st with exts := (assocSet st.exts cur ⟨cur, getKey child "$extensions"⟩) }
          else st) : FlatState).rows = st.rows
      rw [apply_ite FlatState.rows]
      simp
    rwa [hrows] at he
  · intro pre k st hk elems ih hNE hor hkeys
    rw [Bool.not_eq_true] at hk
    rw [flattenEntry_arr lang pre k elems st hk]
    exact ih hNE (joinKey_ne_empty hor) (by simpa [noEmptyKeysJ] using hkeys)
  · intro t pre k st hk hnobj hnarr hNE _ _
    rw [Bool.not_eq_true] at hk
    cases t with
    | obj child => exact absurd rfl (hnobj child)
    | arr elems => exact absurd rfl (hnarr elems)
    | null =>
        rw [flattenEntry.eq_def]
        simp only [hk, Bool.false_eq_true, if_false]
        exact hNE
    | bool b =>
        rw [flattenEntry.eq_def]
        simp only [hk, Bool.false_eq_true, if_false]
        exact hNE
    | num n =>
        rw [flattenEntry.eq_def]
        simp only [hk, Bool.false_eq_true, if_false]
        exact hNE
    | str s =>
        rw [flattenEntry.eq_def]
        simp only [hk, Bool.false_eq_true, if_false]
        exact hNE
  · intro pre i st hNE _ _
    exact hNE
  · intro pre i st x rest ih1 ih2 hNE hpre hkeys
    rw [show noEmptyKeysL (x :: rest) = (noEmptyKeysJ x && noEmptyKeysL rest) from rfl,
      Bool.and_eq_true] at hkeys
    rw [flattenElems_cons]
    exact ih2 (ih1 hNE (Or.inr hpre) hkeys.1) hpre hkeys.2
  · intro pre st hNE _
    exact hNE
  · intro pre st e rest ih1 ih2 hNE hkeys
    rw [show noEmptyKeysO (e :: rest) =
      ((e.1 != "") && noEmptyKeysJ e.2 && noEmptyKeysO rest) from rfl,
      Bool.and_eq_true, Bool.and_eq_true] at hkeys
    rw [flattenEntries_cons]
    exact ih2 (ih1 hNE (Or.inl (bne_iff_ne.mp hkeys.1.1)) hkeys.1.2) hkeys.2

theorem runFlatten_preserves_ne (lang : Lang) (j : Option Jobj) (st : FlatState)
    (hNE : RowsNE st) (hkeys : ∀ es ∈ j, noEmptyKeysO es = true) :
    RowsNE (runFlatten lang j st) := by
  cases j with
  | none => exact hNE
  | some es => exact flattenEntries_preserves_ne lang "" es st hNE (hkeys es rfl)

/-- C5 (amended): every `FlatRow` produced by `flattenJsons` has a
non-empty `key_path` provided no object key in any of the input trees is
the empty string.  (With an empty top-level key the invariant fails — see
the counterexample.) -/
theorem flattenJsons_key_path_nonempty (az en ru : Option Jobj)
    (h1 : ∀ es ∈ az, noEmptyKeysO es = true)
    (h2 : ∀ es ∈ en, noEmptyKeysO es = true)
    (h3 : ∀ es ∈ ru, noEmptyKeysO es = true) :
    ∀ r ∈ (flattenJsons az en ru).1, r.key_path ≠ "" := by
  intro r hr
  simp only [flattenJsons] at hr
  rw [List.mem_map] at hr
  obtain ⟨e, he, rfl⟩ := hr
  have H : RowsNE (runFlatten .ru ru (runFlatten .en en (runFlatten .az az ⟨[], []⟩))) := by
    apply runFlatten_preserves_ne _ _ _ _ h3
    apply runFlatten_preserves_ne _ _ _ _ h2
    apply runFlatten_preserves_ne _ _ _ _ h1
    intro e2 he2
    simp at he2
  exact H e he

/-- C5 (counterexample): a tree with an empty top-level key whose child is
a leaf token yields a row whose `key_path` is the empty string. -/
theorem flattenJsons_empty_key_path :
    (flattenJsons (some [("", .obj [("$value", .str "x")])]) none none).1 =
      [⟨"", .str "x", .null, .null, .null, .null⟩] := by
  decide

/-- C5 (witness): the amended invariant at concrete trees without empty
keys. -/
theorem flattenJsons_key_path_nonempty_witness :
    (∀ es ∈ (some [("theme", Json.obj [("color", Json.obj [("$value", Json.str "x")])])] :
        Option Jobj), noEmptyKeysO es = true) ∧
      ∀ r ∈ (flattenJsons
          (some [("theme", .obj [("color", .obj [("$value", .str "x")])])])
          none none).1, r.key_path ≠ "" := by
  refine ⟨by decide, ?_⟩
  apply flattenJsons_key_path_nonempty
  · intro es hes
    rw [Option.mem_def, Option.some.injEq] at hes
    subst hes
    decide
  · intro es hes
    simp at hes
  · intro es hes
    simp at hes

/-! ### The duplicate detector agrees with its specification model -/

theorem firstDedup_nil : firstDedup [] = [] := by
  rw [firstDedup]

theorem firstDedup_cons (a : String) (l : List String) :
    firstDedup (a :: l) = a :: firstDedup (l.filter (fun x => x != a)) := by
  rw [firstDedup]

theorem dupStep_none {lang : Lang} {t : Translation} (m : List (String × List String))
    (h : t.getVal lang = none) : dupStep lang m t = m := by
  unfold dupStep
  rw [h]

theorem dupStep_skip {lang : Lang} {t : Translation} {v : String}
    (m : List (String × List String)) (h : t.getVal lang = some v)
    (hb : (v == "" || v.data.all Char.isWhitespace) = true) :
    dupStep lang m t = m := by
  unfold dupStep
  rw [h]
  show (if (v == "" || v.data.all Char.isWhitespace) = true then m
    else assocSet m v ((assocGet m v).getD [] ++ [t.key_path])) = m
  rw [if_pos hb]

theorem dupStep_add {lang : Lang} {t : Translation} {v : String}
    (m : List (String × List String)) (h : t.getVal lang = some v)
    (hb : (v == "" || v.data.all Char.isWhitespace) = false) :
    dupStep lang m t = assocSet m v ((assocGet m v).getD [] ++ [t.key_path]) := by
  unfold dupStep
  rw [h]
  show (if (v == "" || v.data.all Char.isWhitespace) = true then m
    else assocSet m v ((assocGet m v).getD [] ++ [t.key_path])) = _
  rw [hb]
  simp

theorem qualEntry_none {lang : Lang} {t : Translation} (h : t.getVal lang = none) :
    qualEntry lang t = none := by
  unfold qualEntry
  rw [h]

theorem qualEntry_skip {lang : Lang} {t : Translation} {v : String}
    (h : t.getVal lang = some v)
    (hb : (v == "" || v.data.all Char.isWhitespace) = true) :
    qualEntry lang t = none := by
  unfold qualEntry
  rw [h]
  show (if (v == "" || v.data.all Char.isWhitespace) = true then none
    else some (v, t.key_path)) = none
  rw [if_pos hb]

theorem qualEntry_add {lang : Lang} {t : Translation} {v : String}
    (h : t.getVal lang = some v)
    (hb : (v == "" || v.data.all Char.isWhitespace) = false) :
    qualEntry lang t = some (v, t.key_path) := by
  unfold qualEntry
  rw [h]
  show (if (v == "" || v.data.all Char.isWhitespace) = true then none
    else some (v, t.key_path)) = _
  rw [hb]
  simp

theorem mem_firstDedup (v : String) : ∀ l : List String, v ∈ firstDedup l ↔ v ∈ l := by
  refine firstDedup.induct (fun l => v ∈ firstDedup l ↔ v ∈ l) ?_ ?_
  · simp [firstDedup_nil]
  · intro a l ih
    rw [firstDedup_cons, List.mem_cons, List.mem_cons, ih, List.mem_filter]
    constructor
    · rintro (rfl | ⟨h, -⟩)
      · exact Or.inl rfl
      · exact Or.inr h
    · rintro (rfl | h)
      · exact Or.inl rfl
      · by_cases hva : v = a
        · exact Or.inl hva
        · exact Or.inr ⟨h, bne_iff_ne.mpr hva⟩

theorem nodup_firstDedup : ∀ l : List String, (firstDedup l).Nodup := by
  refine firstDedup.induct (fun l => (firstDedup l).Nodup) ?_ ?_
  · show (firstDedup ([] : List String)).Nodup
    rw [firstDedup_nil]
    exact List.nodup_nil
  · intro a l ih
    rw [firstDedup_cons, List.nodup_cons]
    refine ⟨?_, ih⟩
    intro hmem
    rw [mem_firstDedup, List.mem_filter] at hmem
    exact absurd rfl (bne_iff_ne.mp hmem.2)

theorem firstDedup_snoc (v : String) :
    ∀ l : List String,
      (v ∈ l → firstDedup (l ++ [v]) = firstDedup l) ∧
      (v ∉ l → firstDedup (l ++ [v]) = firstDedup l ++ [v]) := by
  refine firstDedup.induct
    (fun l => (v ∈ l → firstDedup (l ++ [v]) = firstDedup l) ∧
      (v ∉ l → firstDedup (l ++ [v]) = firstDedup l ++ [v])) ?_ ?_
  · constructor
    · intro h
      simp at h
    · intro _
      rw [List.nil_append, firstDedup_cons, firstDedup_nil]
      rw [show List.filter (fun x => x != v) ([] : List String) = [] from rfl]
      rw [firstDedup_nil]
      rfl
  · intro a l ih
    constructor
    · intro hmem
      rw [List.cons_append, firstDedup_cons, firstDedup_cons]
      by_cases hva : v = a
      · subst hva
        rw [List.filter_append]
        rw [show List.filter (fun x => x != v) [v] = [] from by simp]
        rw [List.append_nil]
      · rcases List.mem_cons.mp hmem with heq | hmem2
        · exact absurd heq hva
        · rw [List.filter_append]
          rw [show List.filter (fun x => x != a) [v] = [v] from by
            simp [bne_iff_ne.mpr hva]]
          rw [ih.1 (List.mem_filter.mpr ⟨hmem2, bne_iff_ne.mpr hva⟩)]
    · intro hmem
      have hva : v ≠ a := fun h => hmem (h ▸ List.mem_cons_self _ _)
      have hvl : v ∉ l := fun h => hmem (List.mem_cons_of_mem _ h)
      rw [List.cons_append, firstDedup_cons, firstDedup_cons]
      rw [List.filter_append]
      rw [show List.filter (fun x => x != a) [v] = [v] from by
        simp [bne_iff_ne.mpr hva]]
      rw [ih.2 (fun h => hvl (List.mem_filter.mp h).1)]
      rfl

theorem assocGet_map_of_not_mem (ks : List String) (f : String → List String) (v : String)
    (h : v ∉ ks) : assocGet (ks.map (fun w => (w, f w))) v = none := by
  induction ks with
  | nil => rfl
  | cons k rest ih =>
      have hk : (k == v) = false := beq_eq_false_iff_ne.mpr
        (fun hh => h (hh ▸ List.mem_cons_self _ _))
      simp only [List.map_cons, assocGet, List.find?]
      rw [hk]
      exact ih (fun hh => h (List.mem_cons_of_mem _ hh))

theorem assocGet_map_of_mem (ks : List String) (f : String → List String) (v : String)
    (h : v ∈ ks) : assocGet (ks.map (fun w => (w, f w))) v = some (f v) := by
  induction ks with
  | nil => simp at h
  | cons k rest ih =>
      simp only [List.map_cons, assocGet, List.find?]
      by_cases hk : (k == v) = true
      · rw [hk]
        rw [beq_iff_eq] at hk
        subst hk
        rfl
      · rw [Bool.not_eq_true] at hk
        rw [hk]
        rcases List.mem_cons.mp h with rfl | h2
        · rw [beq_self_eq_true] at hk
          exact absurd hk (by simp)
        · exact ih h2

theorem assocSet_map_of_mem (ks : List String) (f : String → List String) (v : String)
    (x : List String) (hnd : ks.Nodup) (h : v ∈ ks) :
    assocSet (ks.map (fun w => (w, f w))) v x =
      ks.map (fun w => (w, if w = v then x else f w)) := by
  induction ks with
  | nil => simp at h
  | cons k rest ih =>
      rw [List.nodup_cons] at hnd
      simp only [List.map_cons, assocSet]
      by_cases hk : k = v
      · subst hk
        rw [if_pos (beq_self_eq_true k)]
        rw [if_pos rfl]
        congr 1
        apply List.map_congr_left
        intro w hw
        rw [if_neg (fun hwv : w = k => hnd.1 (by rw [← hwv]; exact hw))]
      · rw [if_neg (by rw [beq_eq_false_iff_ne.mpr hk]; exact Bool.false_ne_true)]
        rw [if_neg hk]
        rcases List.mem_cons.mp h with rfl | h2
        · exact absurd rfl hk
        · rw [ih hnd.2 h2]

theorem assocSet_of_get_none {α : Type} (m : List (String × α)) (k : String) (v : α)
    (h : assocGet m k = none) : assocSet m k v = m ++ [(k, v)] := by
  induction m with
  | nil => rfl
  | cons e rest ih =>
      simp only [assocGet, List.find?] at h
      by_cases he : (e.1 == k) = true
      · rw [he] at h
        simp at h
      · rw [Bool.not_eq_true] at he
        rw [he] at h
        simp only [assocSet, he, Bool.false_eq_true, if_false, List.cons_append]
        rw [ih h]

theorem filter_paths_nil {Q : List (String × String)} {v : String}
    (h : v ∉ Q.map (fun e => e.1)) :
    Q.filter (fun e => e.1 == v) = [] := by
  rw [List.filter_eq_nil_iff]
  intro e he hbeq
  rw [beq_iff_eq] at hbeq
  exact h (hbeq ▸ List.mem_map_of_mem (fun e => e.1) he)

theorem specQualRows_snoc (ts : List Translation) (t : Translation) (lang : Lang) :
    specQualRows (ts ++ [t]) lang = specQualRows ts lang ++ specQualRows [t] lang := by
  unfold specQualRows
  rw [List.filterMap_append]

theorem specValuePaths_snoc (ts : List Translation) (t : Translation) (lang : Lang)
    (w : String) :
    specValuePaths (ts ++ [t]) lang w =
      specValuePaths ts lang w ++
        ((specQualRows [t] lang).filter (fun e => e.1 == w)).map (fun e => e.2) := by
  unfold specValuePaths
  rw [specQualRows_snoc, List.filter_append, List.map_append]

theorem dupFold_eq (lang : Lang) (ts : List Translation) :
    ts.foldl (dupStep lang) [] =
      (firstDedup ((specQualRows ts lang).map (fun e => e.1))).map
        (fun v => (v, specValuePaths ts lang v)) := by
  induction ts using List.reverseRecOn with
  | nil =>
      rw [show specQualRows [] lang = [] from rfl]
      rw [show (([] : List (String × String)).map (fun e => e.1)) = [] from rfl]
      rw [firstDedup_nil]
      rfl
  | append_singleton ts t ih =>
      rw [List.foldl_append, List.foldl_cons, List.foldl_nil, ih]
      by_cases hq : specQualRows [t] lang = []
      · have hQ : specQualRows (ts ++ [t]) lang = specQualRows ts lang := by
          rw [specQualRows_snoc, hq, List.append_nil]
        have hstep : ∀ m : List (String × List String), dupStep lang m t = m := by
          intro m
          cases hv : t.getVal lang with
          | none => exact dupStep_none m hv
          | some v =>
              cases hb : (v == "" || v.data.all Char.isWhitespace) with
              | true => exact dupStep_skip m hv hb
              | false =>
                  exfalso
                  have : specQualRows [t] lang = [(v, t.key_path)] := by
                    show List.filterMap (qualEntry lang) [t] = [(v, t.key_path)]
                    rw [List.filterMap_cons, List.filterMap_nil, qualEntry_add hv hb]
                  rw [this] at hq
                  exact List.cons_ne_nil _ _ hq
        rw [hstep, hQ]
        apply List.map_congr_left
        intro w _
        rw [specValuePaths_snoc, hq]
        simp
      · have hexists : ∃ v, t.getVal lang = some v ∧
            (v == "" || v.data.all Char.isWhitespace) = false ∧
            specQualRows [t] lang = [(v, t.key_path)] := by
          cases hv : t.getVal lang with
          | none =>
              exfalso
              apply hq
              show List.filterMap (qualEntry lang) [t] = []
              rw [List.filterMap_cons, List.filterMap_nil, qualEntry_none hv]
          | some v =>
              cases hb : (v == "" || v.data.all Char.isWhitespace) with
              | true =>
                  exfalso
                  apply hq
                  show List.filterMap (qualEntry lang) [t] = []
                  rw [List.filterMap_cons, List.filterMap_nil, qualEntry_skip hv hb]
              | false =>
                  refine ⟨v, rfl, hb, ?_⟩
                  show List.filterMap (qualEntry lang) [t] = [(v, t.key_path)]
                  rw [List.filterMap_cons, List.filterMap_nil, qualEntry_add hv hb]
        obtain ⟨v, hv, hb, hQt⟩ := hexists
        have hvals : (specQualRows (ts ++ [t]) lang).map (fun e => e.1) =
            (specQualRows ts lang).map (fun e => e.1) ++ [v] := by
          rw [specQualRows_snoc, hQt, List.map_append]
          rfl
        rw [dupStep_add _ hv hb]
        by_cases hmem : v ∈ (specQualRows ts lang).map (fun e => e.1)
        · rw [assocGet_map_of_mem _ _ _ ((mem_firstDedup v _).mpr hmem)]
          rw [Option.getD_some]
          rw [assocSet_map_of_mem _ _ _ _ (nodup_firstDedup _)
            ((mem_firstDedup v _).mpr hmem)]
          rw [hvals, (firstDedup_snoc v _).1 hmem]
          apply List.map_congr_left
          intro w hw
          rw [specValuePaths_snoc, hQt]
          by_cases hwv : w = v
          · subst hwv
            rw [if_pos rfl]
            simp [specValuePaths]
          · rw [if_neg hwv]
            rw [show List.filter (fun e => e.1 == w) [(v, t.key_path)] = [] from by
              simp [beq_eq_false_iff_ne.mpr (fun h : v = w => hwv h.symm)]]
            simp
        · rw [assocGet_map_of_not_mem _ _ _ (fun h => hmem ((mem_firstDedup v _).mp h))]
          rw [Option.getD_none, List.nil_append]
          rw [assocSet_of_get_none _ _ _
            (assocGet_map_of_not_mem _ _ _ (fun h => hmem ((mem_firstDedup v _).mp h)))]
          rw [hvals, (firstDedup_snoc v _).2 hmem, List.map_append]
          congr 1
          · apply List.map_congr_left
            intro w hw
            have hwv : w ≠ v := fun h => hmem (h ▸ (mem_firstDedup w _).mp hw)
            rw [specValuePaths_snoc, hQt]
            rw [show List.filter (fun e => e.1 == w) [(v, t.key_path)] = [] from by
              simp [beq_eq_false_iff_ne.mpr (fun h : v = w => hwv h.symm)]]
            simp
          · rw [List.map_singleton]
            rw [specValuePaths_snoc, hQt]
            rw [show specValuePaths ts lang v = [] from by
              unfold specValuePaths
              rw [filter_paths_nil hmem]
              rfl]
            simp [specValuePaths]

theorem dupForLang_eq (ts : List Translation) (lang : Lang) :
    dupForLang ts lang = specDupForLang ts lang := by
  unfold dupForLang specDupForLang
  rw [dupFold_eq, List.filterMap_map]
  rfl

/-- C8 (amended): `findDuplicateValues` processes the languages in the
fixed order az, en, ru; within each language it groups the rows that pass
the skip test (null, empty or whitespace-only values are ignored) by exact
value equality and emits one group per value occurring in at least two
qualifying *rows* (key paths are collected per row and not deduplicated),
groups ordered by first occurrence of the value and key paths in row
order.  The second conjunct is the specification's concrete example. -/
theorem findDuplicateValues_eq_spec :
    (∀ ts : List Translation, findDuplicateValues ts = specFindDuplicateValues ts) ∧
      findDuplicateValues
        [⟨"a", none, some "Hello", none, none, none⟩,
         ⟨"b", none, some "Hello", none, none, none⟩,
         ⟨"c", none, some "World", none, none, none⟩] =
        [⟨"Hello", .en, ["a", "b"]⟩] := by
  constructor
  · intro ts
    unfold findDuplicateValues specFindDuplicateValues
    rw [dupForLang_eq, dupForLang_eq, dupForLang_eq]
  · decide

/-- C8 (counterexample): two rows sharing the same key path and the same
value produce a duplicate group although the value occurs under only one
distinct key path — the detector counts rows, not distinct paths. -/
theorem findDuplicateValues_counts_rows_not_paths :
    findDuplicateValues
        [⟨"a", none, some "Hello", none, none, none⟩,
         ⟨"a", none, some "Hello", none, none, none⟩] =
      [⟨"Hello", .en, ["a", "a"]⟩] ∧
      (["a", "a"] : List String).dedup = ["a"] := by
  constructor
  · decide
  · decide

/-! ### Path nesting in the builders -/

theorem splitPath_single (s : String) (h : s.data.contains '.' = false) :
    splitPath s = [s] := by
  unfold splitPath
  rw [splitSegsL_of_dot_free s.data h]
  rfl

theorem assocGet_cons {α : Type} (e : String × α) (rest : List (String × α)) (k : String) :
    assocGet (e :: rest) k =
      if (e.1 == k) = true then some e.2 else assocGet rest k := by
  by_cases he : (e.1 == k) = true
  · rw [if_pos he]
    unfold assocGet
    rw [List.find?_cons_of_pos (p := fun d => d.1 == k) rest he]
    rfl
  · rw [if_neg he]
    unfold assocGet
    rw [List.find?_cons_of_neg (p := fun d => d.1 == k) rest he]

theorem hasKey_of_get {es : Jobj} {s : String} {v : Json}
    (h : assocGet es s = some v) : hasKey es s = true := by
  unfold assocGet at h
  rw [Option.map_eq_some'] at h
  obtain ⟨e, he, -⟩ := h
  unfold hasKey
  rw [List.any_eq_true]
  refine ⟨e, List.mem_of_find?_eq_some he, ?_⟩
  exact List.find?_some (p := fun d : String × Json => d.1 == s) he

theorem assocGet_assocSet_self {α : Type} (m : List (String × α)) (k : String) (v : α) :
    assocGet (assocSet m k v) k = some v := by
  induction m with
  | nil =>
      show assocGet [(k, v)] k = some v
      rw [assocGet_cons, if_pos (beq_self_eq_true k)]
  | cons e rest ih =>
      unfold assocSet
      by_cases he : (e.1 == k) = true
      · rw [if_pos he]
        rw [assocGet_cons, if_pos (beq_self_eq_true k)]
      · rw [Bool.not_eq_true] at he
        rw [if_neg (by rw [he]; exact Bool.false_ne_true)]
        rw [assocGet_cons, if_neg (by rw [he]; exact Bool.false_ne_true)]
        exact ih

theorem assocGet_assocSet_ne {α : Type} (m : List (String × α)) (k k2 : String) (v : α)
    (h : k2 ≠ k) : assocGet (assocSet m k v) k2 = assocGet m k2 := by
  have hkk2 : (k == k2) = false := beq_eq_false_iff_ne.mpr (fun hh => h hh.symm)
  induction m with
  | nil =>
      show assocGet [(k, v)] k2 = assocGet [] k2
      rw [assocGet_cons, if_neg (by rw [hkk2]; exact Bool.false_ne_true)]
  | cons e rest ih =>
      unfold assocSet
      by_cases he : (e.1 == k) = true
      · rw [if_pos he]
        rw [beq_iff_eq] at he
        have he2 : (e.1 == k2) = false := by
          rw [he]
          exact hkk2
        rw [assocGet_cons, if_neg (by rw [hkk2]; exact Bool.false_ne_true)]
        rw [assocGet_cons, if_neg (by rw [he2]; exact Bool.false_ne_true)]
      · rw [Bool.not_eq_true] at he
        rw [if_neg (by rw [he]; exact Bool.false_ne_true)]
        rw [assocGet_cons, assocGet_cons]
        by_cases he2 : (e.1 == k2) = true
        · rw [if_pos he2, if_pos he2]
        · rw [if_neg he2, if_neg he2]
          exact ih

theorem getKey_of_get {es : Jobj} {s : String} {v : Json}
    (h : assocGet es s = some v) : getKey es s = v := by
  unfold getKey
  rw [h]
  rfl

theorem setNested_single (es : Jobj) (last : String) (v : Json) :
    setNested es [last] v = .ok (assocSet es last v) := rfl

theorem setNested_cons (es : Jobj) (s s2 : String) (rest : List String) (v : Json) :
    setNested es (s :: s2 :: rest) v =
      (match assocGet (if hasKey es s && jsTypeofObject (getKey es s) then es
          else assocSet es s (.obj [])) s with
       | some (.obj child) =>
           match setNested child (s2 :: rest) v with
           | .ok child1 => .ok (assocSet
               (if hasKey es s && jsTypeofObject (getKey es s) then es
                 else assocSet es s (.obj [])) s (.obj child1))
           | .error e => .error e
       | _ => .error ()) := rfl

theorem setNested_cons_obj (es : Jobj) (s s2 : String) (rest : List String) (v : Json)
    (child : Jobj) (hget : assocGet es s = some (.obj child)) :
    setNested es (s :: s2 :: rest) v =
      match setNested child (s2 :: rest) v with
      | .ok child1 => .ok (assocSet es s (.obj child1))
      | .error e => .error e := by
  have hcond : (hasKey es s && jsTypeofObject (getKey es s)) = true := by
    rw [hasKey_of_get hget, getKey_of_get hget]
    rfl
  rw [setNested_cons, if_pos hcond, hget]

/-- C4 (counterexample): placing a deeper row under a path whose prefix
already holds a leaf token does *not* overwrite the leaf with a fresh
object: `typeof leaf === 'object'`, so the walk descends into the leaf and
the intermediate position keeps its `$value`/`$type` alongside the new
child. -/
theorem setNested_leaf_not_overwritten :
    buildDeveloperJson
        [⟨"a", some "X", none, none, none, none⟩,
         ⟨"a.b", some "Y", none, none, none, none⟩] =
      .ok [("Translations/AZ", .obj [("a", .obj [("$value", .str "X"), ("$type", .null),
             ("b", .obj [("$value", .str "Y"), ("$type", .null)])])]),
           ("Translations/EN", .obj []), ("Translations/RU", .obj [])] := by
  decide

/-- C4 (amended): when an intermediate segment's position already holds an
object — in particular a leaf token object — `setNestedValue` does not
replace it with a fresh object: the walk descends into the existing
object and only places the final segment inside it, preserving every other
property of the leaf (in particular its `$value` and `$type`).  A fresh
`{}` is substituted only when the position is absent or holds a
non-object. -/
theorem setNested_preserves_intermediate_leaf (es child : Jobj) (a b : String) (v : Json)
    (hget : assocGet es a = some (.obj child)) :
    setNested es [a, b] v = .ok (assocSet es a (.obj (assocSet child b v))) ∧
      ∀ k, k ≠ b → assocGet (assocSet child b v) k = assocGet child k := by
  constructor
  · rw [setNested_cons_obj es a b [] v child hget, setNested_single]
  · intro k hk
    exact assocGet_assocSet_ne child b k v hk

/-- C4 (witness): the intermediate leaf `{$value: "X", $type: null}` keeps
its fields when the deeper row `a.b` is placed inside it. -/
theorem setNested_preserves_intermediate_leaf_witness :
    setNested [("a", .obj [("$value", .str "X"), ("$type", .null)])] ["a", "b"]
        (.obj [("$value", .str "Y"), ("$type", .null)]) =
      .ok [("a", .obj [("$value", .str "X"), ("$type", .null),
        ("b", .obj [("$value", .str "Y"), ("$type", .null)])])] ∧
      assocGet (assocSet [("$value", Json.str "X"), ("$type", Json.null)] "b"
          (.obj [("$value", .str "Y"), ("$type", .null)])) "$value" =
        some (.str "X") := by
  have h := setNested_preserves_intermediate_leaf
    [("a", .obj [("$value", .str "X"), ("$type", .null)])]
    [("$value", .str "X"), ("$type", .null)] "a" "b"
    (.obj [("$value", .str "Y"), ("$type", .null)]) (by decide)
  constructor
  · rw [h.1]
    decide
  · rw [h.2 "$value" (by decide)]
    decide

/-! ### Top-level shape of the developer export -/

/-- C10 (counterexample): `buildDeveloperJson` does not return an object
for *every* list of translations — on a row whose key path passes through
the `$type` property of an earlier typeless token it throws a `TypeError`
(`typeof null === 'object'` lets the walk descend into `null`). -/
theorem buildDeveloperJson_no_result_on_null_descent :
    buildDeveloperJson
        [⟨"r", none, none, some "v", none, none⟩,
         ⟨"r.$type.s", none, none, some "w", none, none⟩] = .error () := by
  decide

/-- C10 (amended): whenever `buildDeveloperJson` returns (does not throw),
the returned object's top-level keys are exactly `Translations/AZ`,
`Translations/EN`, `Translations/RU` in that insertion order, each mapping
to an object — also for the empty row list. -/
theorem buildDeveloperJson_top_level (ts : List Translation) (o : Jobj)
    (h : buildDeveloperJson ts = .ok o) :
    o.map (fun e => e.1) = ["Translations/AZ", "Translations/EN", "Translations/RU"] ∧
      ∀ e ∈ o, ∃ es : Jobj, e.2 = .obj es := by
  unfold buildDeveloperJson at h
  cases hf : ts.foldl devStep (.ok ([], [], [])) with
  | error e =>
      rw [hf] at h
      exact absurd h (by simp)
  | ok triple =>
      obtain ⟨azT, enT, ruT⟩ := triple
      rw [hf] at h
      rw [Except.ok.injEq] at h
      subst h
      refine ⟨rfl, ?_⟩
      intro e he
      simp only [List.mem_cons, List.not_mem_nil, or_false] at he
      rcases he with rfl | rfl | rfl
      · exact ⟨azT, rfl⟩
      · exact ⟨enT, rfl⟩
      · exact ⟨ruT, rfl⟩

/-- C10 (witness): the amended top-level-shape theorem at the empty list. -/
theorem buildDeveloperJson_top_level_witness :
    ([("Translations/AZ", Json.obj []), ("Translations/EN", Json.obj []),
        ("Translations/RU", Json.obj [])].map (fun e => e.1) =
      ["Translations/AZ", "Translations/EN", "Translations/RU"]) ∧
      ∀ e ∈ [("Translations/AZ", Json.obj []), ("Translations/EN", Json.obj []),
          ("Translations/RU", Json.obj [])], ∃ es : Jobj, e.2 = .obj es :=
  buildDeveloperJson_top_level [] _ (by decide)

/-! ### Association-list and purity toolbox for the round trip -/

theorem hasKey_append (l1 l2 : Jobj) (k : String) :
    hasKey (l1 ++ l2) k = (hasKey l1 k || hasKey l2 k) := by
  unfold hasKey
  exact List.any_append

theorem hasKey_eq_isSome (es : Jobj) (k : String) :
    hasKey es k = (assocGet es k).isSome := by
  induction es with
  | nil => rfl
  | cons e rest ih =>
      unfold hasKey
      rw [List.any_cons, assocGet_cons]
      by_cases he : (e.1 == k) = true
      · rw [if_pos he, he]
        rfl
      · rw [Bool.not_eq_true] at he
        rw [he, if_neg Bool.false_ne_true, Bool.false_or]
        exact ih

theorem assocGet_mem_key {α : Type} {m : List (String × α)} {k : String} {v : α}
    (h : assocGet m k = some v) : ∃ e ∈ m, e.1 = k ∧ e.2 = v := by
  unfold assocGet at h
  rw [Option.map_eq_some'] at h
  obtain ⟨e, he, rfl⟩ := h
  refine ⟨e, List.mem_of_find?_eq_some he, ?_, rfl⟩
  have hb := List.find?_some (p := fun d : String × α => d.1 == k) he
  exact beq_iff_eq.mp hb

theorem assocSet_decomp {α : Type} {m : List (String × α)} {s : String} {old : α}
    (h : assocGet m s = some old) :
    ∃ l1 l2, m = l1 ++ (s, old) :: l2 ∧ (∀ e ∈ l1, (e.1 == s) = false) ∧
      ∀ nv : α, assocSet m s nv = l1 ++ (s, nv) :: l2 := by
  induction m with
  | nil => exact absurd h (by simp [assocGet])
  | cons e rest ih =>
      rw [assocGet_cons] at h
      by_cases he : (e.1 == s) = true
      · rw [if_pos he] at h
        rw [Option.some.injEq] at h
        obtain ⟨k0, v0⟩ := e
        obtain rfl : v0 = old := h
        obtain rfl : k0 = s := beq_iff_eq.mp he
        refine ⟨[], rest, rfl, ?_, ?_⟩
        · intro e2 he2
          exact absurd he2 (List.not_mem_nil e2)
        · intro nv
          unfold assocSet
          rw [if_pos (beq_self_eq_true _)]
          rfl
      · rw [if_neg he] at h
        obtain ⟨l1, l2, hm, hl1, hset⟩ := ih h
        rw [Bool.not_eq_true] at he
        refine ⟨e :: l1, l2, by rw [List.cons_append, ← hm], ?_, ?_⟩
        · intro e2 he2
          rcases List.mem_cons.mp he2 with rfl | he2
          · exact he
          · exact hl1 e2 he2
        · intro nv
          unfold assocSet
          rw [if_neg (by rw [he]; exact Bool.false_ne_true)]
          rw [hset nv]
          rfl

theorem hasKey_mid (l1 l2 : Jobj) (s k : String) (x : Json) :
    hasKey (l1 ++ (s, x) :: l2) k = (hasKey l1 k || ((s == k) || hasKey l2 k)) := by
  rw [hasKey_append]
  rw [show hasKey ((s, x) :: l2) k = ((s == k) || hasKey l2 k) from rfl]

theorem leafO_append (pre : String) (l1 l2 : Jobj) :
    leafO pre (l1 ++ l2) = leafO pre l1 ++ leafO pre l2 := by
  induction l1 with
  | nil => rfl
  | cons e rest ih =>
      obtain ⟨k, v⟩ := e
      rw [List.cons_append]
      rw [show leafO pre ((k, v) :: (rest ++ l2)) = leafV pre k v ++ leafO pre (rest ++ l2)
        from rfl]
      rw [show leafO pre ((k, v) :: rest) = leafV pre k v ++ leafO pre rest from rfl]
      rw [ih, List.append_assoc]

theorem foldUpd_append (lang : Lang) (rows : List (String × FlatRow))
    (l1 l2 : List (String × Jobj)) :
    foldUpd lang rows (l1 ++ l2) = foldUpd lang (foldUpd lang rows l1) l2 := by
  induction l1 generalizing rows with
  | nil => rfl
  | cons e rest ih =>
      obtain ⟨p, tok⟩ := e
      rw [List.cons_append]
      rw [show foldUpd lang rows ((p, tok) :: (rest ++ l2)) =
        foldUpd lang (assocSet rows p (updateLeafRow lang tok p (assocGet rows p)))
          (rest ++ l2) from rfl]
      rw [show foldUpd lang rows ((p, tok) :: rest) =
        foldUpd lang (assocSet rows p (updateLeafRow lang tok p (assocGet rows p)))
          rest from rfl]
      exact ih _

theorem pureO_cons {k : String} {v : Json} {rest : Jobj}
    (h : pureO ((k, v) :: rest) = true) :
    (k != "") = true ∧ (k != "$extensions") = true ∧ hasKey rest k = false ∧
      pureV v = true ∧ pureO rest = true := by
  rw [show pureO ((k, v) :: rest) =
    ((k != "") && (k != "$extensions") && (!hasKey rest k) && pureV v && pureO rest)
    from rfl] at h
  rw [Bool.and_eq_true, Bool.and_eq_true, Bool.and_eq_true, Bool.and_eq_true] at h
  exact ⟨h.1.1.1.1, h.1.1.1.2, by simpa using h.1.1.2, h.1.2, h.2⟩

theorem pureO_cons_of {k : String} {v : Json} {rest : Jobj}
    (h1 : (k != "") = true) (h2 : (k != "$extensions") = true)
    (h3 : hasKey rest k = false) (h4 : pureV v = true) (h5 : pureO rest = true) :
    pureO ((k, v) :: rest) = true := by
  rw [show pureO ((k, v) :: rest) =
    ((k != "") && (k != "$extensions") && (!hasKey rest k) && pureV v && pureO rest)
    from rfl]
  rw [h1, h2, h3, h4, h5]
  rfl

theorem pureO_no_ext {es : Jobj} (h : pureO es = true) :
    hasKey es "$extensions" = false := by
  induction es with
  | nil => rfl
  | cons e rest ih =>
      obtain ⟨k, v⟩ := e
      obtain ⟨h1, h2, h3, h4, h5⟩ := pureO_cons h
      unfold hasKey
      rw [List.any_cons]
      rw [show (((k, v) : String × Json).1 == "$extensions") =
        (k == "$extensions") from rfl]
      rw [beq_eq_false_iff_ne.mpr (bne_iff_ne.mp h2), Bool.false_or]
      exact ih h5

theorem pure_get {es : Jobj} {s : String} {v : Json} (hp : pureO es = true)
    (h : assocGet es s = some v) : pureV v = true := by
  induction es with
  | nil => exact absurd h (by simp [assocGet])
  | cons e rest ih =>
      obtain ⟨k, w⟩ := e
      obtain ⟨h1, h2, h3, h4, h5⟩ := pureO_cons hp
      rw [assocGet_cons] at h
      by_cases he : (((k, w) : String × Json).1 == s) = true
      · rw [if_pos he] at h
        rw [Option.some.injEq] at h
        rw [← h]
        exact h4
      · rw [if_neg he] at h
        exact ih h5 h

theorem pureO_append_one {es : Jobj} {k : String} {v : Json} (hp : pureO es = true)
    (hk : hasKey es k = false) (h1 : k ≠ "") (h2 : k ≠ "$extensions")
    (hv : pureV v = true) : pureO (es ++ [(k, v)]) = true := by
  induction es with
  | nil =>
      rw [List.nil_append]
      exact pureO_cons_of (bne_iff_ne.mpr h1) (bne_iff_ne.mpr h2) rfl hv rfl
  | cons e rest ih =>
      obtain ⟨k0, v0⟩ := e
      obtain ⟨g1, g2, g3, g4, g5⟩ := pureO_cons hp
      unfold hasKey at hk
      rw [List.any_cons, Bool.or_eq_false_iff] at hk
      have hkk0 : (k == k0) = false :=
        beq_eq_false_iff_ne.mpr (Ne.symm (beq_eq_false_iff_ne.mp hk.1))
      rw [List.cons_append]
      refine pureO_cons_of g1 g2 ?_ g4 (ih g5 hk.2)
      rw [hasKey_append, g3, Bool.false_or]
      rw [show hasKey [(k, v)] k0 = ((k == k0) || false) from rfl, Bool.or_false]
      exact hkk0

theorem pureO_mid_replace {l1 l2 : Jobj} {s : String} {old nv : Json}
    (hp : pureO (l1 ++ (s, old) :: l2) = true) (hnv : pureV nv = true) :
    pureO (l1 ++ (s, nv) :: l2) = true := by
  induction l1 with
  | nil =>
      rw [List.nil_append] at hp ⊢
      obtain ⟨h1, h2, h3, h4, h5⟩ := pureO_cons hp
      exact pureO_cons_of h1 h2 h3 hnv h5
  | cons e rest ih =>
      obtain ⟨k0, v0⟩ := e
      rw [List.cons_append] at hp ⊢
      obtain ⟨g1, g2, g3, g4, g5⟩ := pureO_cons hp
      refine pureO_cons_of g1 g2 ?_ g4 (ih g5)
      rw [hasKey_mid] at g3 ⊢
      exact g3

/-! ### Flattening a pure token tree, leaf by leaf -/

theorem flatten_pure (lang : Lang) :
    ∀ (pre : String) (es : Jobj) (st : FlatState), pureO es = true →
      flattenEntries lang pre es st =
        ⟨foldUpd lang st.rows (leafO pre es), st.exts⟩ := by
  refine flattenEntries.induct lang
    (fun pre k v st => (k != "$extensions") = true → pureV v = true →
      flattenEntry lang pre k v st = ⟨foldUpd lang st.rows (leafV pre k v), st.exts⟩)
    (fun pre i xs st => True)
    (fun pre es st => pureO es = true →
      flattenEntries lang pre es st = ⟨foldUpd lang st.rows (leafO pre es), st.exts⟩)
    ?_ ?_ ?_ ?_ ?_ ?_ ?_ ?_ ?_
  · intro t pre k st hk hne _
    exact absurd (beq_iff_eq.mp hk) (bne_iff_ne.mp hne)
  · intro pre k st hk child hval hne hpv
    rw [Bool.not_eq_true] at hk
    rw [flattenEntry_leaf lang pre k child st hk hval]
    rw [show leafV pre k (.obj child) = (if hasKey child "$value" then
      [(joinKey pre k, child)] else leafO (joinKey pre k) child) from rfl, hval]
    rfl
  · intro pre k st hk child cur hval st1 ih hne hpv
    rw [Bool.not_eq_true] at hk hval
    have hpc : pureO child = true := by
      rw [show pureV (.obj child) = (if hasKey child "$value" then isTokB child
        else pureO child) from rfl, hval] at hpv
      simpa using hpv
    have hne2 : truthy (getKey child "$extensions") = false := by
      have hx := pureO_no_ext hpc
      rw [hasKey_eq_isSome] at hx
      rw [show getKey child "$extensions" =
        (assocGet child "$extensions").getD .null from rfl]
      cases hAG : assocGet child "$extensions" with
      | none => rfl
      | some v =>
          rw [hAG] at hx
          exact absurd hx (by simp)
    have hcur : cur = joinKey pre k := rfl
    have hst1 : st1 = st := by
      rw [show st1 = (if truthy (getKey child "$extensions") = true then
        { st with exts := assocSet st.exts cur ⟨cur, getKey child "$extensions"⟩ }
        else st) from rfl, hne2, if_neg Bool.false_ne_true]
    have ih2 := ih hpc
    rw [hcur, hst1] at ih2
    rw [flattenEntry_group lang pre k child st hk hval]
    rw [hne2, if_neg Bool.false_ne_true]
    rw [ih2]
    rw [show leafV pre k (.obj child) = (if hasKey child "$value" then
      [(joinKey pre k, child)] else leafO (joinKey pre k) child) from rfl, hval]
    rfl
  · intro pre k st hk elems ih hne hpv
    rw [show pureV (.arr elems) = false from rfl] at hpv
    exact absurd hpv Bool.false_ne_true
  · intro t pre k st hk hnobj hnarr hne hpv
    cases t with
    | obj child => exact absurd rfl (hnobj child)
    | arr elems => exact absurd rfl (hnarr elems)
    | null =>
        rw [show pureV .null = false from rfl] at hpv
        exact absurd hpv Bool.false_ne_true
    | bool b =>
        rw [show pureV (.bool b) = false from rfl] at hpv
        exact absurd hpv Bool.false_ne_true
    | num n =>
        rw [show pureV (.num n) = false from rfl] at hpv
        exact absurd hpv Bool.false_ne_true
    | str s =>
        rw [show pureV (.str s) = false from rfl] at hpv
        exact absurd hpv Bool.false_ne_true
  · intro pre i st
    trivial
  · intro pre i st x rest ih1 ih2
    trivial
  · intro pre st h
    rw [flattenEntries.eq_def]
    rfl
  · intro pre st e rest ih1 ih2 hp
    obtain ⟨k, v⟩ := e
    obtain ⟨h1, h2, h3, h4, h5⟩ := pureO_cons hp
    rw [flattenEntries_cons]
    rw [ih2 h5]
    rw [ih1 h2 h4]
    rw [show leafO pre ((k, v) :: rest) = leafV pre k v ++ leafO pre rest from rfl]
    rw [foldUpd_append]

/-! ### Freshness, apartness and insertion toolbox -/

theorem assocGet_of_not_hasKey {es : Jobj} {q : String} (h : hasKey es q = false) :
    assocGet es q = none := by
  rw [hasKey_eq_isSome] at h
  cases hg : assocGet es q with
  | none => rfl
  | some v =>
      rw [hg] at h
      exact absurd h (by simp)

theorem fst_beq {α : Type} (k q : String) (v : α) :
    (((k, v) : String × α).1 == q) = (k == q) := rfl

theorem assocSet_cons {α : Type} (e : String × α) (rest : List (String × α))
    (k : String) (v : α) :
    assocSet (e :: rest) k v =
      if (e.1 == k) = true then (k, v) :: rest else e :: assocSet rest k v := rfl

theorem assocGet_snoc_ne {α : Type} (es : List (String × α)) (k q : String) (v : α)
    (h : (k == q) = false) : assocGet (es ++ [(k, v)]) q = assocGet es q := by
  induction es with
  | nil =>
      rw [List.nil_append, assocGet_cons, fst_beq, h, if_neg Bool.false_ne_true]
  | cons e rest ih =>
      rw [List.cons_append, assocGet_cons, assocGet_cons]
      by_cases he : (e.1 == q) = true
      · rw [if_pos he, if_pos he]
      · rw [if_neg he, if_neg he]
        exact ih

theorem assocGet_snoc_self {α : Type} (es : List (String × α)) (k : String) (v : α)
    (h : assocGet es k = none) : assocGet (es ++ [(k, v)]) k = some v := by
  induction es with
  | nil =>
      rw [List.nil_append, assocGet_cons, fst_beq, beq_self_eq_true, if_pos rfl]
  | cons e rest ih =>
      rw [assocGet_cons] at h
      by_cases he : (e.1 == k) = true
      · rw [if_pos he] at h
        exact absurd h (by simp)
      · rw [if_neg he] at h
        rw [List.cons_append, assocGet_cons, if_neg he]
        exact ih h

theorem assocSet_assocSet {α : Type} (m : List (String × α)) (k : String) (a b : α) :
    assocSet (assocSet m k a) k b = assocSet m k b := by
  induction m with
  | nil =>
      rw [show assocSet ([] : List (String × α)) k a = [(k, a)] from rfl]
      rw [show assocSet ([] : List (String × α)) k b = [(k, b)] from rfl]
      rw [assocSet_cons, fst_beq, beq_self_eq_true, if_pos rfl]
  | cons e rest ih =>
      rw [assocSet_cons]
      by_cases he : (e.1 == k) = true
      · rw [if_pos he]
        rw [assocSet_cons, fst_beq, beq_self_eq_true, if_pos rfl]
        rw [assocSet_cons, if_pos he]
      · rw [if_neg he]
        rw [assocSet_cons, if_neg he]
        rw [assocSet_cons, if_neg he]
        rw [ih]

theorem assocGet_mid_ne {α : Type} (l1 l2 : List (String × α)) (s q : String) (x y : α)
    (h : (s == q) = false) :
    assocGet (l1 ++ (s, x) :: l2) q = assocGet (l1 ++ (s, y) :: l2) q := by
  induction l1 with
  | nil =>
      rw [List.nil_append, List.nil_append, assocGet_cons, assocGet_cons,
        fst_beq s q x, fst_beq s q y, h, if_neg Bool.false_ne_true,
        if_neg Bool.false_ne_true]
  | cons e rest ih =>
      rw [List.cons_append, List.cons_append, assocGet_cons, assocGet_cons]
      by_cases he : (e.1 == q) = true
      · rw [if_pos he, if_pos he]
      · rw [if_neg he, if_neg he]
        exact ih

theorem assocGet_mid_self {α : Type} (l1 l2 : List (String × α)) (s : String) (x : α)
    (hl1 : ∀ e ∈ l1, (e.1 == s) = false) :
    assocGet (l1 ++ (s, x) :: l2) s = some x := by
  induction l1 with
  | nil =>
      rw [List.nil_append, assocGet_cons, fst_beq, beq_self_eq_true, if_pos rfl]
  | cons e rest ih =>
      rw [List.cons_append, assocGet_cons]
      rw [if_neg (by rw [hl1 e (List.mem_cons_self _ _)]; exact Bool.false_ne_true)]
      exact ih (fun e2 he2 => hl1 e2 (List.mem_cons_of_mem _ he2))

theorem freshPathB_nil : ∀ qs : List String, freshPathB ([] : Jobj) qs = true
  | [] => rfl
  | [_] => rfl
  | _ :: _ :: _ => rfl

theorem freshPathB_ext {es1 es2 : Jobj} {q1 : String} (qr : List String)
    (h : assocGet es1 q1 = assocGet es2 q1) :
    freshPathB es1 (q1 :: qr) = freshPathB es2 (q1 :: qr) := by
  cases qr with
  | nil =>
      rw [show freshPathB es1 [q1] = (assocGet es1 q1).isNone from rfl,
        show freshPathB es2 [q1] = (assocGet es2 q1).isNone from rfl, h]
  | cons q2 qr2 =>
      rw [show freshPathB es1 (q1 :: q2 :: qr2) = (match assocGet es1 q1 with
          | none => true
          | some (.obj child) => !hasKey child "$value" && freshPathB child (q2 :: qr2)
          | some _ => false) from rfl]
      rw [show freshPathB es2 (q1 :: q2 :: qr2) = (match assocGet es2 q1 with
          | none => true
          | some (.obj child) => !hasKey child "$value" && freshPathB child (q2 :: qr2)
          | some _ => false) from rfl]
      rw [h]

theorem segsApart_cons (s : String) (a b : List String) :
    segsApart (s :: a) (s :: b) = segsApart a b := by
  unfold segsApart
  rw [show List.isPrefixOf (s :: a) (s :: b) = ((s == s) && List.isPrefixOf a b) from rfl]
  rw [show List.isPrefixOf (s :: b) (s :: a) = ((s == s) && List.isPrefixOf b a) from rfl]
  rw [beq_self_eq_true, Bool.true_and, Bool.true_and]

theorem segsApart_nil_left (qs : List String) : segsApart [] qs = false := by
  cases qs with
  | nil => rfl
  | cons q qr => rfl

theorem segOk_parts {s : String} (h : segOk s = true) :
    s ≠ "" ∧ s ≠ "$value" ∧ s ≠ "$extensions" := by
  unfold segOk at h
  rw [Bool.and_eq_true, Bool.and_eq_true] at h
  exact ⟨bne_iff_ne.mp h.1.1, bne_iff_ne.mp h.1.2, bne_iff_ne.mp h.2⟩

theorem segsApart_nil_right (a : List String) : segsApart a [] = false := by
  cases a with
  | nil => rfl
  | cons x xs => rfl

theorem leafV_leaf (pre k : String) {tok : Jobj} (hv : hasKey tok "$value" = true) :
    leafV pre k (.obj tok) = [(joinKey pre k, tok)] := by
  rw [show leafV pre k (.obj tok) = (if hasKey tok "$value" then [(joinKey pre k, tok)]
    else leafO (joinKey pre k) tok) from rfl, hv]
  simp

theorem leafV_group (pre k : String) {child : Jobj} (hv : hasKey child "$value" = false) :
    leafV pre k (.obj child) = leafO (joinKey pre k) child := by
  rw [show leafV pre k (.obj child) = (if hasKey child "$value" then [(joinKey pre k, child)]
    else leafO (joinKey pre k) child) from rfl, hv]
  simp

theorem leafO_mid (pre k : String) (v : Json) (l1 l2 : Jobj) :
    leafO pre (l1 ++ (k, v) :: l2) = leafO pre l1 ++ (leafV pre k v ++ leafO pre l2) := by
  rw [leafO_append]
  rw [show leafO pre ((k, v) :: l2) = leafV pre k v ++ leafO pre l2 from rfl]

theorem pureV_leaf {tok : Jobj} (hv : hasKey tok "$value" = true)
    (ht : isTokB tok = true) : pureV (.obj tok) = true := by
  rw [show pureV (.obj tok) = (if hasKey tok "$value" then isTokB tok else pureO tok)
    from rfl, hv]
  simpa using ht

theorem pureV_group_of {child : Jobj} (hv : hasKey child "$value" = false)
    (hp : pureO child = true) : pureV (.obj child) = true := by
  rw [show pureV (.obj child) = (if hasKey child "$value" then isTokB child else pureO child)
    from rfl, hv]
  simpa using hp

theorem pureO_of_group {child : Jobj} (hv : hasKey child "$value" = false)
    (h : pureV (.obj child) = true) : pureO child = true := by
  rw [show pureV (.obj child) = (if hasKey child "$value" then isTokB child else pureO child)
    from rfl, hv] at h
  simpa using h

theorem setNested_cons_fresh (es : Jobj) (s s2 : String) (rest : List String) (v : Json)
    (hget : assocGet es s = none) :
    setNested es (s :: s2 :: rest) v =
      match setNested ([] : Jobj) (s2 :: rest) v with
      | .ok child1 => .ok (assocSet es s (.obj child1))
      | .error e => .error e := by
  have hkes : hasKey es s = false := by
    rw [hasKey_eq_isSome, hget]
    rfl
  have hcond : (hasKey es s && jsTypeofObject (getKey es s)) = false := by
    rw [hkes]
    rfl
  rw [setNested_cons, if_neg (by rw [hcond]; exact Bool.false_ne_true)]
  rw [assocGet_assocSet_self]
  show (match setNested ([] : Jobj) (s2 :: rest) v with
      | .ok child1 => (.ok (assocSet (assocSet es s (.obj [])) s (.obj child1)) :
          Except Unit Jobj)
      | .error e => .error e) =
    match setNested ([] : Jobj) (s2 :: rest) v with
    | .ok child1 => .ok (assocSet es s (.obj child1))
    | .error e => .error e
  cases setNested ([] : Jobj) (s2 :: rest) v with
  | ok c1 =>
      show Except.ok (assocSet (assocSet es s (Json.obj [])) s (Json.obj c1)) =
        Except.ok (assocSet es s (Json.obj c1))
      rw [assocSet_assocSet]
  | error e => rfl

/-- Inserting a token along a fresh, admissible path into a pure tree
succeeds, keeps the tree pure, adds exactly one leaf (up to order), leaves
other keys untouched and preserves freshness of apart paths. -/
theorem setNested_insert (tok : Jobj) (hv : hasKey tok "$value" = true)
    (htk : isTokB tok = true) :
    ∀ (segs : List String) (es : Jobj), segs ≠ [] →
      (∀ x ∈ segs, segOk x = true) → pureO es = true →
      freshPathB es segs = true →
      ∃ es2, setNested es segs (.obj tok) = .ok es2 ∧ pureO es2 = true ∧
        (∀ pre, (leafO pre es2).Perm ((joinFrom pre segs, tok) :: leafO pre es)) ∧
        (∀ q, q ∉ segs → hasKey es2 q = hasKey es q) ∧
        (∀ qs, segsApart segs qs = true → freshPathB es qs = true →
          freshPathB es2 qs = true) := by
  intro segs
  induction segs with
  | nil =>
      intro es h
      exact absurd rfl h
  | cons s tail ih =>
      intro es hne hok hp hf
      obtain ⟨hs1, hs2, hs3⟩ := segOk_parts (hok s (List.mem_cons_self _ _))
      cases tail with
      | nil =>
          have hfl : assocGet es s = none :=
            Option.isNone_iff_eq_none.mp (hf : (assocGet es s).isNone = true)
          have hkes : hasKey es s = false := by
            rw [hasKey_eq_isSome, hfl]
            rfl
          refine ⟨es ++ [(s, .obj tok)], ?_, ?_, ?_, ?_, ?_⟩
          · rw [setNested_single, assocSet_of_get_none _ _ _ hfl]
          · exact pureO_append_one hp hkes hs1 hs3 (pureV_leaf hv htk)
          · intro pre
            rw [leafO_append]
            rw [show leafO pre [(s, Json.obj tok)] =
              leafV pre s (.obj tok) ++ leafO pre ([] : Jobj) from rfl]
            rw [show leafO pre ([] : Jobj) = [] from rfl, List.append_nil]
            rw [leafV_leaf pre s hv]
            rw [show joinFrom pre [s] = joinKey pre s from rfl]
            exact List.perm_append_singleton _ _
          · intro q hq
            rw [hasKey_append]
            rw [show hasKey [(s, Json.obj tok)] q = ((s == q) || false) from rfl,
              Bool.or_false]
            rw [beq_eq_false_iff_ne.mpr
              (fun hh => hq (by rw [← hh]; exact List.mem_cons_self _ _)), Bool.or_false]
          · intro qs hap hfq
            cases qs with
            | nil => rfl
            | cons q1 qr =>
                by_cases hq1 : (s == q1) = true
                · obtain rfl : s = q1 := beq_iff_eq.mp hq1
                  rw [segsApart_cons, segsApart_nil_left] at hap
                  exact absurd hap Bool.false_ne_true
                · rw [Bool.not_eq_true] at hq1
                  rw [freshPathB_ext qr (assocGet_snoc_ne es s q1 (Json.obj tok) hq1)]
                  exact hfq
      | cons s2 rest =>
          have hok2 : ∀ x ∈ s2 :: rest, segOk x = true :=
            fun x hx => hok x (List.mem_cons_of_mem _ hx)
          have hne2 : s2 :: rest ≠ [] := List.cons_ne_nil _ _
          have hvnot : "$value" ∉ s2 :: rest :=
            fun hmem => (segOk_parts (hok2 _ hmem)).2.1 rfl
          have hf2 : (match assocGet es s with
              | none => true
              | some (.obj child) => !hasKey child "$value" && freshPathB child (s2 :: rest)
              | some _ => false) = true := hf
          cases hget : assocGet es s with
          | none =>
              obtain ⟨child', hso, hpc', hperm', hkeys', hfresh'⟩ :=
                ih ([] : Jobj) hne2 hok2 rfl (freshPathB_nil _)
              have hchv : hasKey child' "$value" = false := by
                rw [ hkeys' "$value" hvnot]
                rfl
              refine ⟨es ++ [(s, .obj child')], ?_, ?_, ?_, ?_, ?_⟩
              · rw [setNested_cons_fresh es s s2 rest (.obj tok) hget, hso]
                show Except.ok (assocSet es s (Json.obj child')) = _
                rw [assocSet_of_get_none _ _ _ hget]
              · have hkes : hasKey es s = false := by
                  rw [hasKey_eq_isSome, hget]
                  rfl
                exact pureO_append_one hp hkes hs1 hs3 (pureV_group_of hchv hpc')
              · intro pre
                rw [leafO_append]
                rw [show leafO pre [(s, Json.obj child')] =
                  leafV pre s (.obj child') ++ leafO pre ([] : Jobj) from rfl]
                rw [show leafO pre ([] : Jobj) = [] from rfl, List.append_nil]
                rw [leafV_group pre s hchv]
                rw [show joinFrom pre (s :: s2 :: rest) =
                  joinFrom (joinKey pre s) (s2 :: rest) from rfl]
                have hp1 := hperm' (joinKey pre s)
                rw [show leafO (joinKey pre s) ([] : Jobj) = [] from rfl] at hp1
                exact (List.Perm.append_left _ hp1).trans (List.perm_append_singleton _ _)
              · intro q hq
                rw [hasKey_append]
                rw [show hasKey [(s, Json.obj child')] q = ((s == q) || false) from rfl,
                  Bool.or_false]
                rw [beq_eq_false_iff_ne.mpr
                  (fun hh => hq (by rw [← hh]; exact List.mem_cons_self _ _)), Bool.or_false]
              · intro qs hap hfq
                cases qs with
                | nil => rfl
                | cons q1 qr =>
                    by_cases hq1 : (s == q1) = true
                    · obtain rfl : s = q1 := beq_iff_eq.mp hq1
                      rw [segsApart_cons] at hap
                      cases qr with
                      | nil =>
                          rw [segsApart_nil_right] at hap
                          exact absurd hap Bool.false_ne_true
                      | cons q2 qr2 =>
                          have hgq : assocGet (es ++ [(s, Json.obj child')]) s =
                              some (.obj child') := assocGet_snoc_self es s _ hget
                          show (match assocGet (es ++ [(s, Json.obj child')]) s with
                              | none => true
                              | some (.obj c) =>
                                  !hasKey c "$value" && freshPathB c (q2 :: qr2)
                              | some _ => false) = true
                          rw [hgq]
                          show (!hasKey child' "$value" &&
                            freshPathB child' (q2 :: qr2)) = true
                          rw [hchv, hfresh' (q2 :: qr2) hap (freshPathB_nil _)]
                          rfl
                    · rw [Bool.not_eq_true] at hq1
                      rw [freshPathB_ext qr
                        (assocGet_snoc_ne es s q1 (Json.obj child') hq1)]
                      exact hfq
          | some val =>
              rw [hget] at hf2
              cases val with
              | obj child =>
                  have hf3 : (!hasKey child "$value" &&
                      freshPathB child (s2 :: rest)) = true := hf2
                  rw [Bool.and_eq_true] at hf3
                  have hklf : hasKey child "$value" = false := by
                    simpa using hf3.1
                  have hpc : pureO child = true :=
                    pureO_of_group hklf (pure_get hp hget)
                  obtain ⟨child', hso, hpc', hperm', hkeys', hfresh'⟩ :=
                    ih child hne2 hok2 hpc hf3.2
                  have hchv : hasKey child' "$value" = false := by
                    rw [ hkeys' "$value" hvnot]
                    exact hklf
                  obtain ⟨l1, l2, hdecomp, hl1, hsetf⟩ := assocSet_decomp hget
                  refine ⟨l1 ++ (s, .obj child') :: l2, ?_, ?_, ?_, ?_, ?_⟩
                  · rw [setNested_cons_obj es s s2 rest (.obj tok) child hget, hso]
                    show Except.ok (assocSet es s (Json.obj child')) = _
                    rw [hsetf (.obj child')]
                  · rw [hdecomp] at hp
                    exact pureO_mid_replace hp (pureV_group_of hchv hpc')
                  · intro pre
                    rw [hdecomp]
                    rw [leafO_mid, leafO_mid, leafV_group pre s hchv,
                      leafV_group pre s hklf]
                    rw [show joinFrom pre (s :: s2 :: rest) =
                      joinFrom (joinKey pre s) (s2 :: rest) from rfl]
                    have hp1 := hperm' (joinKey pre s)
                    exact (List.Perm.append_left _ (hp1.append_right _)).trans
                      List.perm_middle
                  · intro q hq
                    rw [hdecomp, hasKey_mid, hasKey_mid]
                  · intro qs hap hfq
                    rw [hdecomp] at hfq
                    cases qs with
                    | nil => rfl
                    | cons q1 qr =>
                        by_cases hq1 : (s == q1) = true
                        · obtain rfl : s = q1 := beq_iff_eq.mp hq1
                          rw [segsApart_cons] at hap
                          cases qr with
                          | nil =>
                              rw [segsApart_nil_right] at hap
                              exact absurd hap Bool.false_ne_true
                          | cons q2 qr2 =>
                              have hgq : assocGet (l1 ++ (s, Json.obj child) :: l2) s =
                                  some (.obj child) := assocGet_mid_self l1 l2 s _ hl1
                              have hfq2 : (match assocGet (l1 ++ (s, Json.obj child) :: l2)
                                    s with
                                  | none => true
                                  | some (.obj c) =>
                                      !hasKey c "$value" && freshPathB c (q2 :: qr2)
                                  | some _ => false) = true := hfq
                              rw [hgq] at hfq2
                              have hfq3 : (!hasKey child "$value" &&
                                  freshPathB child (q2 :: qr2)) = true := hfq2
                              rw [Bool.and_eq_true] at hfq3
                              have hgq' : assocGet (l1 ++ (s, Json.obj child') :: l2) s =
                                  some (.obj child') := assocGet_mid_self l1 l2 s _ hl1
                              show (match assocGet (l1 ++ (s, Json.obj child') :: l2) s with
                                  | none => true
                                  | some (.obj c) =>
                                      !hasKey c "$value" && freshPathB c (q2 :: qr2)
                                  | some _ => false) = true
                              rw [hgq']
                              show (!hasKey child' "$value" &&
                                freshPathB child' (q2 :: qr2)) = true
                              rw [hchv, hfresh' (q2 :: qr2) hap hfq3.2]
                              rfl
                        · rw [Bool.not_eq_true] at hq1
                          rw [freshPathB_ext qr
                            (assocGet_mid_ne l1 l2 s q1 (Json.obj child') (Json.obj child)
                              hq1)]
                          exact hfq
              | null => exact absurd hf2 Bool.false_ne_true
              | bool b => exact absurd hf2 Bool.false_ne_true
              | num n => exact absurd hf2 Bool.false_ne_true
              | str str2 => exact absurd hf2 Bool.false_ne_true
              | arr elems => exact absurd hf2 Bool.false_ne_true

/-! ### Joined paths of inserted leaves -/

theorem joinKey_of_ne (pre k : String) (h : pre ≠ "") :
    joinKey pre k = pre ++ "." ++ k := by
  unfold joinKey
  rw [if_neg (by rw [beq_eq_false_iff_ne.mpr h]; exact Bool.false_ne_true)]

theorem append_dot_ne (p s : String) : p ++ "." ++ s ≠ "" := by
  intro hc
  have hd := congrArg String.data hc
  rw [String.data_append, String.data_append] at hd
  simp at hd

theorem joinPath_glue (p s : String) (rest : List String) :
    joinPath ((p ++ "." ++ s) :: rest) = joinPath (p :: s :: rest) := by
  unfold joinPath
  have hdata : (p ++ "." ++ s).data = p.data ++ '.' :: s.data := by
    rw [String.data_append, String.data_append]
    rw [show ("." : String).data = ['.'] from rfl]
    rw [List.append_assoc]
    rfl
  rw [show ((p ++ "." ++ s) :: rest).map String.data =
    (p ++ "." ++ s).data :: rest.map String.data from rfl]
  rw [show (p :: s :: rest).map String.data =
    p.data :: s.data :: rest.map String.data from rfl]
  rw [hdata]
  refine congrArg (fun l => (⟨l⟩ : String)) ?_
  cases hll : rest.map String.data with
  | nil => rfl
  | cons z zs =>
      rw [show joinSegsL ((p.data ++ '.' :: s.data) :: z :: zs) =
        (p.data ++ '.' :: s.data) ++ '.' :: joinSegsL (z :: zs) from rfl]
      rw [show joinSegsL (p.data :: s.data :: z :: zs) =
        p.data ++ '.' :: joinSegsL (s.data :: z :: zs) from rfl]
      rw [show joinSegsL (s.data :: z :: zs) = s.data ++ '.' :: joinSegsL (z :: zs) from rfl]
      rw [List.append_assoc]
      rfl

theorem joinFrom_go : ∀ (segs : List String) (pre : String), pre ≠ "" →
    joinFrom pre segs = joinPath (pre :: segs) := by
  intro segs
  induction segs with
  | nil =>
      intro pre hpre
      rfl
  | cons s rest ih =>
      intro pre hpre
      show joinFrom (joinKey pre s) rest = joinPath (pre :: s :: rest)
      rw [joinKey_of_ne pre s hpre]
      rw [ih (pre ++ "." ++ s) (append_dot_ne pre s)]
      exact joinPath_glue pre s rest

theorem joinFrom_split (p : String) (hx : ∀ x ∈ splitPath p, segOk x = true) :
    joinFrom "" (splitPath p) = p := by
  cases hs : splitPath p with
  | nil => exact absurd hs (splitPath_ne_nil p)
  | cons s rest =>
      have hsne : s ≠ "" :=
        (segOk_parts (hx s (by rw [hs]; exact List.mem_cons_self _ _))).1
      show joinFrom (joinKey "" s) rest = p
      rw [show joinKey "" s = s from by unfold joinKey; rw [if_pos (by decide)]]
      rw [joinFrom_go rest s hsne]
      rw [← hs]
      exact joinPath_splitPath p

/-! ### One builder step per language, and the whole fold -/

theorem apartPaths_cons {t : Translation} {ts : List Translation}
    (h : apartPaths (t :: ts) = true) :
    (∀ u ∈ ts, segsApart (splitPath t.key_path) (splitPath u.key_path) = true) ∧
      apartPaths ts = true := by
  rw [show apartPaths (t :: ts) =
    (ts.all (fun u => segsApart (splitPath t.key_path) (splitPath u.key_path)) &&
      apartPaths ts) from rfl, Bool.and_eq_true] at h
  exact ⟨fun u hu => List.all_eq_true.mp h.1 u hu, h.2⟩

theorem devLang_ok (t : Translation) (v : Option String) (es : Jobj)
    (hsegs : (splitPath t.key_path).all segOk = true)
    (hp : pureO es = true) (hf : freshPathB es (splitPath t.key_path) = true) :
    ∃ es2, devPlace t v es = .ok es2 ∧ pureO es2 = true ∧
      (leafO "" es2).Perm
        ((v.toList.map (fun s => (t.key_path, devTok t s))) ++ leafO "" es) ∧
      ∀ qs, segsApart (splitPath t.key_path) qs = true → freshPathB es qs = true →
        freshPathB es2 qs = true := by
  cases v with
  | none =>
      refine ⟨es, rfl, hp, ?_, fun qs _ hq => hq⟩
      show (leafO "" es).Perm ([] ++ leafO "" es)
      rw [List.nil_append]
  | some s =>
      have hsegs2 : ∀ x ∈ splitPath t.key_path, segOk x = true :=
        fun x hx => List.all_eq_true.mp hsegs x hx
      have hvt : hasKey (devTok t s) "$value" = true := by
        unfold devTok hasKey
        rw [List.any_cons, fst_beq, beq_self_eq_true, Bool.true_or]
      have htt : isTokB (devTok t s) = true := by
        show (("$value" : String) == "$value" && (("$type" : String) == "$type")) = true
        rw [beq_self_eq_true, beq_self_eq_true]
        rfl
      obtain ⟨es2, hso, hp2, hperm, hkeys, hfresh⟩ :=
        setNested_insert (devTok t s) hvt htt (splitPath t.key_path) es
          (splitPath_ne_nil _) hsegs2 hp hf
      refine ⟨es2, ?_, hp2, ?_, hfresh⟩
      · show setNested es (splitPath t.key_path) (.obj (devTok t s)) = .ok es2
        exact hso
      · have h1 := hperm ""
        rw [joinFrom_split t.key_path hsegs2] at h1
        exact h1

theorem leafSpec_cons (lang : Lang) (t : Translation) (ts2 : List Translation) :
    leafSpec lang (t :: ts2) =
      ((t.getVal lang).toList.map (fun v => (t.key_path, devTok t v))) ++
        leafSpec lang ts2 := by
  unfold leafSpec
  rw [List.filterMap_cons]
  cases t.getVal lang <;> rfl

theorem devFold_ok :
    ∀ (ts : List Translation) (A E R : Jobj),
      (∀ t ∈ ts, (splitPath t.key_path).all segOk = true) →
      apartPaths ts = true →
      pureO A = true → pureO E = true → pureO R = true →
      (∀ t ∈ ts, freshPathB A (splitPath t.key_path) = true ∧
        freshPathB E (splitPath t.key_path) = true ∧
        freshPathB R (splitPath t.key_path) = true) →
      ∃ A2 E2 R2, ts.foldl devStep (.ok (A, E, R)) = .ok (A2, E2, R2) ∧
        pureO A2 = true ∧ pureO E2 = true ∧ pureO R2 = true ∧
        (leafO "" A2).Perm (leafSpec .az ts ++ leafO "" A) ∧
        (leafO "" E2).Perm (leafSpec .en ts ++ leafO "" E) ∧
        (leafO "" R2).Perm (leafSpec .ru ts ++ leafO "" R) := by
  intro ts
  induction ts with
  | nil =>
      intro A E R hseg hap hpA hpE hpR hfr
      exact ⟨A, E, R, rfl, hpA, hpE, hpR,
        by rw [show leafSpec .az [] = [] from rfl, List.nil_append],
        by rw [show leafSpec .en [] = [] from rfl, List.nil_append],
        by rw [show leafSpec .ru [] = [] from rfl, List.nil_append]⟩
  | cons t ts2 ih =>
      intro A E R hseg hap hpA hpE hpR hfr
      obtain ⟨hapt, hap2⟩ := apartPaths_cons hap
      have hsegt : (splitPath t.key_path).all segOk = true :=
        hseg t (List.mem_cons_self _ _)
      obtain ⟨hfA, hfE, hfR⟩ := hfr t (List.mem_cons_self _ _)
      obtain ⟨A1, hA, hpA1, hpermA, hfreshA⟩ := devLang_ok t t.az_value A hsegt hpA hfA
      obtain ⟨E1, hE, hpE1, hpermE, hfreshE⟩ := devLang_ok t t.en_value E hsegt hpE hfE
      obtain ⟨R1, hR, hpR1, hpermR, hfreshR⟩ := devLang_ok t t.ru_value R hsegt hpR hfR
      have hstep : devStep (.ok (A, E, R)) t = .ok (A1, E1, R1) := by
        rw [show devStep (.ok (A, E, R)) t = (match devPlace t t.az_value A with
            | .error e => .error e
            | .ok azT1 =>
                match devPlace t t.en_value E with
                | .error e => .error e
                | .ok enT1 =>
                    match devPlace t t.ru_value R with
                    | .error e => .error e
                    | .ok ruT1 => .ok (azT1, enT1, ruT1)) from rfl]
        rw [hA]
        show (match devPlace t t.en_value E with
            | .error e => (.error e : Except Unit (Jobj × Jobj × Jobj))
            | .ok enT1 =>
                match devPlace t t.ru_value R with
                | .error e => .error e
                | .ok ruT1 => .ok (A1, enT1, ruT1)) = _
        rw [hE]
        show (match devPlace t t.ru_value R with
            | .error e => (.error e : Except Unit (Jobj × Jobj × Jobj))
            | .ok ruT1 => .ok (A1, E1, ruT1)) = _
        rw [hR]
      have hrest : (t :: ts2).foldl devStep (.ok (A, E, R)) =
          ts2.foldl devStep (.ok (A1, E1, R1)) := by
        rw [List.foldl_cons, hstep]
      obtain ⟨A2, E2, R2, hfold, hp2A, hp2E, hp2R, hP2A, hP2E, hP2R⟩ :=
        ih A1 E1 R1 (fun u hu => hseg u (List.mem_cons_of_mem _ hu)) hap2
          hpA1 hpE1 hpR1
          (fun u hu => ⟨hfreshA _ (hapt u hu) (hfr u (List.mem_cons_of_mem _ hu)).1,
            hfreshE _ (hapt u hu) (hfr u (List.mem_cons_of_mem _ hu)).2.1,
            hfreshR _ (hapt u hu) (hfr u (List.mem_cons_of_mem _ hu)).2.2⟩)
      refine ⟨A2, E2, R2, by rw [hrest, hfold], hp2A, hp2E, hp2R, ?_, ?_, ?_⟩
      · refine hP2A.trans ?_
        rw [leafSpec_cons .az t ts2]
        refine (List.Perm.append_left _ hpermA).trans ?_
        rw [← List.append_assoc]
        exact List.perm_append_comm.append_right _
      · refine hP2E.trans ?_
        rw [leafSpec_cons .en t ts2]
        refine (List.Perm.append_left _ hpermE).trans ?_
        rw [← List.append_assoc]
        exact List.perm_append_comm.append_right _
      · refine hP2R.trans ?_
        rw [leafSpec_cons .ru t ts2]
        refine (List.Perm.append_left _ hpermR).trans ?_
        rw [← List.append_assoc]
        exact List.perm_append_comm.append_right _

/-! ### Row-map lookups after the leaf folds -/

theorem foldUpd_not_mem (lang : Lang) (q : String) :
    ∀ (pts : List (String × Jobj)) (rows : List (String × FlatRow)),
      (∀ pt ∈ pts, (pt.1 == q) = false) →
      assocGet (foldUpd lang rows pts) q = assocGet rows q := by
  intro pts
  induction pts with
  | nil =>
      intro rows h
      rfl
  | cons pt rest ih =>
      intro rows h
      obtain ⟨p, tok⟩ := pt
      rw [show foldUpd lang rows ((p, tok) :: rest) = foldUpd lang
        (assocSet rows p (updateLeafRow lang tok p (assocGet rows p))) rest from rfl]
      rw [ih _ (fun x hx => h x (List.mem_cons_of_mem _ hx))]
      refine assocGet_assocSet_ne rows p q _ (Ne.symm (beq_eq_false_iff_ne.mp ?_))
      have hh := h (p, tok) (List.mem_cons_self _ _)
      rw [fst_beq] at hh
      exact hh

theorem foldUpd_mem (lang : Lang) (q : String) (tok : Jobj) :
    ∀ (pts : List (String × Jobj)) (rows : List (String × FlatRow)),
      (q, tok) ∈ pts → (pts.map Prod.fst).Nodup →
      assocGet (foldUpd lang rows pts) q =
        some (updateLeafRow lang tok q (assocGet rows q)) := by
  intro pts
  induction pts with
  | nil =>
      intro rows hmem hnd
      exact absurd hmem (List.not_mem_nil _)
  | cons pt rest ih =>
      intro rows hmem hnd
      obtain ⟨p, tk⟩ := pt
      rw [List.map_cons, List.nodup_cons] at hnd
      rw [show foldUpd lang rows ((p, tk) :: rest) = foldUpd lang
        (assocSet rows p (updateLeafRow lang tk p (assocGet rows p))) rest from rfl]
      rcases List.mem_cons.mp hmem with heq | hmem2
      · have h1 : q = p := congrArg Prod.fst heq
        have h2 : tok = tk := congrArg Prod.snd heq
        subst h1
        subst h2
        rw [foldUpd_not_mem lang q rest _ (fun x hx => beq_eq_false_iff_ne.mpr
          (fun hh => hnd.1 (by rw [← hh]; exact List.mem_map.mpr ⟨x, hx, rfl⟩)))]
        rw [assocGet_assocSet_self]
      · have hpq : q ≠ p := by
          intro hh
          refine hnd.1 ?_
          rw [← hh]
          exact List.mem_map.mpr ⟨(q, tok), hmem2, rfl⟩
        rw [ih _ hmem2 hnd.2, assocGet_assocSet_ne rows p q _ hpq]

theorem foldUpd_key_inv (lang : Lang) :
    ∀ (pts : List (String × Jobj)) (rows : List (String × FlatRow)),
      (∀ e ∈ rows, e.2.key_path = e.1) →
      ∀ e ∈ foldUpd lang rows pts, e.2.key_path = e.1 := by
  intro pts
  induction pts with
  | nil =>
      intro rows h
      exact h
  | cons pt rest ih =>
      intro rows h
      obtain ⟨p, tok⟩ := pt
      rw [show foldUpd lang rows ((p, tok) :: rest) = foldUpd lang
        (assocSet rows p (updateLeafRow lang tok p (assocGet rows p))) rest from rfl]
      refine ih _ ?_
      intro e he
      rcases mem_assocSet he with rfl | he2
      · show (updateLeafRow lang tok p (assocGet rows p)).key_path = p
        rw [updateLeafRow_key_path]
        cases hg : assocGet rows p with
        | none => rfl
        | some r =>
            obtain ⟨e2, hm2, hk, hv⟩ := assocGet_mem_key hg
            show r.key_path = p
            rw [← hv, h e2 hm2, hk]
      · exact h e he2

theorem rows_find_bridge (q : String) :
    ∀ rows : List (String × FlatRow),
      (∀ e ∈ rows, e.2.key_path = e.1) →
      (rows.map (fun e => e.2)).find? (fun r => r.key_path == q) = assocGet rows q := by
  intro rows
  induction rows with
  | nil =>
      intro h
      rfl
  | cons e rest ih =>
      intro h
      rw [List.map_cons, assocGet_cons]
      by_cases hpq : (e.1 == q) = true
      · rw [if_pos hpq]
        rw [List.find?_cons_of_pos (p := fun r : FlatRow => r.key_path == q) _
          (by show (e.2.key_path == q) = true
              rw [h e (List.mem_cons_self _ _)]
              exact hpq)]
      · rw [if_neg hpq]
        rw [List.find?_cons_of_neg (p := fun r : FlatRow => r.key_path == q) _
          (by show ¬(e.2.key_path == q) = true
              rw [h e (List.mem_cons_self _ _)]
              exact hpq)]
        exact ih (fun x hx => h x (List.mem_cons_of_mem _ hx))

/-! ### Distinctness of the built leaf paths -/

theorem isPfx_refl (l : List String) : List.isPrefixOf l l = true := by
  induction l with
  | nil => rfl
  | cons x xs ih =>
      show ((x == x) && List.isPrefixOf xs xs) = true
      rw [beq_self_eq_true, ih]
      rfl

theorem keyPaths_nodup : ∀ {ts : List Translation}, apartPaths ts = true →
    (ts.map (fun t => t.key_path)).Nodup := by
  intro ts
  induction ts with
  | nil =>
      intro hap
      exact List.nodup_nil
  | cons t rest ih =>
      intro hap
      obtain ⟨h1, h2⟩ := apartPaths_cons hap
      rw [List.map_cons, List.nodup_cons]
      refine ⟨?_, ih h2⟩
      intro hmem
      obtain ⟨u, hu, he⟩ := List.mem_map.mp hmem
      have hx := h1 u hu
      rw [show u.key_path = t.key_path from he] at hx
      unfold segsApart at hx
      rw [isPfx_refl] at hx
      exact Bool.false_ne_true hx

theorem nodup_key_inj : ∀ {ts : List Translation},
    (ts.map (fun t => t.key_path)).Nodup →
    ∀ {t1 t2 : Translation}, t1 ∈ ts → t2 ∈ ts → t1.key_path = t2.key_path → t1 = t2 := by
  intro ts
  induction ts with
  | nil =>
      intro hnd t1 t2 h1
      exact absurd h1 (List.not_mem_nil _)
  | cons u rest ih =>
      intro hnd t1 t2 h1 h2 he
      rw [List.map_cons, List.nodup_cons] at hnd
      rcases List.mem_cons.mp h1 with rfl | h1b
      · rcases List.mem_cons.mp h2 with rfl | h2b
        · rfl
        · exact absurd (List.mem_map.mpr ⟨t2, h2b, he.symm⟩) hnd.1
      · rcases List.mem_cons.mp h2 with rfl | h2b
        · exact absurd (List.mem_map.mpr ⟨t1, h1b, he⟩) hnd.1
        · exact ih hnd.2 h1b h2b he

theorem mem_leafSpec {lang : Lang} {ts : List Translation} {x : String × Jobj} :
    x ∈ leafSpec lang ts ↔
      ∃ t ∈ ts, ∃ v, t.getVal lang = some v ∧ x = (t.key_path, devTok t v) := by
  unfold leafSpec
  rw [List.mem_filterMap]
  constructor
  · rintro ⟨t, ht, hm⟩
    rw [Option.map_eq_some'] at hm
    obtain ⟨v, hv, rfl⟩ := hm
    exact ⟨t, ht, v, hv, rfl⟩
  · rintro ⟨t, ht, v, hv, rfl⟩
    refine ⟨t, ht, ?_⟩
    rw [hv]
    rfl

theorem leafSpec_fst_nodup (lang : Lang) : ∀ {ts : List Translation},
    (ts.map (fun t => t.key_path)).Nodup →
    ((leafSpec lang ts).map Prod.fst).Nodup := by
  intro ts
  induction ts with
  | nil =>
      intro hnd
      exact List.nodup_nil
  | cons t rest ih =>
      intro hnd
      rw [List.map_cons, List.nodup_cons] at hnd
      rw [leafSpec_cons]
      cases hg : t.getVal lang with
      | none => exact ih hnd.2
      | some v =>
          show (t.key_path :: (leafSpec lang rest).map Prod.fst).Nodup
          rw [List.nodup_cons]
          refine ⟨?_, ih hnd.2⟩
          intro hmem
          obtain ⟨x, hx, he⟩ := List.mem_map.mp hmem
          obtain ⟨u, hu, w, hw, rfl⟩ := mem_leafSpec.mp hx
          exact hnd.1 (List.mem_map.mpr ⟨u, hu, he⟩)

/-! ### What one flattener update does to a built token -/

theorem getKey_devTok_val (t : Translation) (v : String) :
    getKey (devTok t v) "$value" = .str v := by
  unfold getKey assocGet devTok
  rw [List.find?_cons_of_pos (p := fun e : String × Json => e.1 == "$value") _
    (show (("$value" : String) == "$value") = true by decide)]
  rfl

theorem getKey_devTok_type (t : Translation) (v : String) :
    getKey (devTok t v) "$type" = jsonOfOptStr (devTokenType t) := by
  unfold getKey assocGet devTok
  rw [List.find?_cons_of_neg (p := fun e : String × Json => e.1 == "$type") _
    (show ¬(("$value" : String) == "$type") = true by decide)]
  rw [List.find?_cons_of_pos (p := fun e : String × Json => e.1 == "$type") _
    (show (("$type" : String) == "$type") = true by decide)]
  rfl

theorem getKey_devTok_ext (t : Translation) (v : String) :
    getKey (devTok t v) "$extensions" = .null := by
  unfold getKey assocGet devTok
  rw [List.find?_cons_of_neg (p := fun e : String × Json => e.1 == "$extensions") _
    (show ¬(("$value" : String) == "$extensions") = true by decide)]
  rw [List.find?_cons_of_neg (p := fun e : String × Json => e.1 == "$extensions") _
    (show ¬(("$type" : String) == "$extensions") = true by decide)]
  rfl

theorem updateLeafRow_devTok (lang : Lang) (t : Translation) (v : String) (q : String)
    (old : Option FlatRow) :
    updateLeafRow lang (devTok t v) q old =
      { (old.getD (FlatRow.blank q)).setVal lang (.str v) with
        token_type := if truthy (jsonOfOptStr (devTokenType t)) = true
          then jsonOfOptStr (devTokenType t)
          else ((old.getD (FlatRow.blank q)).setVal lang (.str v)).token_type } := by
  simp only [updateLeafRow]
  rw [getKey_devTok_val, getKey_devTok_type, getKey_devTok_ext]
  rw [show truthy Json.null = false from rfl, if_neg Bool.false_ne_true]

theorem rowOk_parts {t : Translation} (h : rowOk t = true) :
    (splitPath t.key_path).all segOk = true ∧ t.token_type ≠ some "" ∧
      (t.az_value.isSome || t.en_value.isSome || t.ru_value.isSome) = true := by
  unfold rowOk at h
  rw [Bool.and_eq_true, Bool.and_eq_true] at h
  exact ⟨h.1.1, bne_iff_ne.mp h.1.2, h.2⟩

theorem devTokenType_none {t : Translation} (hg : t.token_type = none) :
    devTokenType t = none := by
  unfold devTokenType
  rw [hg]
  rfl

theorem devTokenType_some {t : Translation} {s : String} (hg : t.token_type = some s)
    (hs : s ≠ "") : ∃ s2, devTokenType t = some s2 ∧ s2 ≠ "" := by
  by_cases hss : (s == "string") = true
  · refine ⟨"text", ?_, by decide⟩
    unfold devTokenType
    rw [hg, show ((some s : Option String) == some "string") = (s == "string") from rfl,
      hss]
    rfl
  · rw [Bool.not_eq_true] at hss
    refine ⟨s, ?_, hs⟩
    unfold devTokenType
    rw [hg, show ((some s : Option String) == some "string") = (s == "string") from rfl,
      hss]
    rfl

theorem langChain (t : Translation) (hok : rowOk t = true) :
    langStep t .ru (langStep t .en (langStep t .az none)) = some (roundRow t) := by
  obtain ⟨hseg, htt, hval⟩ := rowOk_parts hok
  have htok : (truthy (jsonOfOptStr (devTokenType t)) = false ∧ devTokenType t = none) ∨
      truthy (jsonOfOptStr (devTokenType t)) = true := by
    cases hg : t.token_type with
    | none =>
        left
        rw [devTokenType_none hg]
        exact ⟨rfl, rfl⟩
    | some s =>
        right
        have hs : s ≠ "" := fun hh => htt (by rw [hg, hh])
        obtain ⟨s2, hdt, hs2⟩ := devTokenType_some hg hs
        rw [hdt]
        show (s2 != "") = true
        exact bne_iff_ne.mpr hs2
  unfold langStep roundRow
  rw [show Translation.getVal t .az = t.az_value from rfl,
    show Translation.getVal t .en = t.en_value from rfl,
    show Translation.getVal t .ru = t.ru_value from rfl]
  cases haz : t.az_value <;> cases hen : t.en_value <;> cases hru : t.ru_value
  · rw [haz, hen, hru] at hval
    exact absurd hval Bool.false_ne_true
  all_goals simp only [updateLeafRow_devTok]
  all_goals rcases htok with ⟨hfal, hdtn⟩ | htru
  all_goals try (rw [hdtn]; rfl)
  all_goals (rw [htru]; rfl)

theorem foldUpd_langStep (lang : Lang) {ts : List Translation}
    (hnd : (ts.map (fun t => t.key_path)).Nodup) {t0 : Translation} (ht0 : t0 ∈ ts)
    {L : List (String × Jobj)} (hP : L.Perm (leafSpec lang ts))
    (rows : List (String × FlatRow)) :
    assocGet (foldUpd lang rows L) t0.key_path =
      langStep t0 lang (assocGet rows t0.key_path) := by
  cases hv : t0.getVal lang with
  | some v =>
      have hmem : (t0.key_path, devTok t0 v) ∈ L :=
        hP.mem_iff.mpr (mem_leafSpec.mpr ⟨t0, ht0, v, hv, rfl⟩)
      have hndL : (L.map Prod.fst).Nodup :=
        (hP.map Prod.fst).nodup_iff.mpr (leafSpec_fst_nodup lang hnd)
      rw [foldUpd_mem lang t0.key_path (devTok t0 v) L rows hmem hndL]
      unfold langStep
      rw [hv]
  | none =>
      rw [foldUpd_not_mem lang t0.key_path L rows ?notin]
      · unfold langStep
        rw [hv]
      case notin =>
        intro pt hpt
        obtain ⟨t1, ht1, w, hw, rfl⟩ := mem_leafSpec.mp (hP.mem_iff.mp hpt)
        show (t1.key_path == t0.key_path) = false
        refine beq_eq_false_iff_ne.mpr (fun he => ?_)
        rw [nodup_key_inj hnd ht1 ht0 he, hv] at hw
        exact Option.noConfusion hw

/-- C3 (amended): the restricted round trip.  For a row list whose key
paths are pairwise segment-apart, whose segments avoid the builder's and
flattener's special keys, whose `token_type` is never the falsy `""` and
where every row carries at least one language value, `buildDeveloperJson`
returns, and re-flattening the three per-language subtrees of its output
reproduces exactly the original rows per key path — values verbatim,
`token_type` through the `"string"` → `"text"` rewrite, and
`figma_variable_id` cleared to `null` (the developer export does not carry
the figma ids, which is also why the unrestricted round-trip claim fails). -/
theorem buildDeveloperJson_round_trip (ts : List Translation)
    (hok : ts.all rowOk = true) (hap : apartPaths ts = true) :
    ∃ o, buildDeveloperJson ts = .ok o ∧
      ∀ q : String,
        ((flattenJsons (asObj (getKey o "Translations/AZ"))
            (asObj (getKey o "Translations/EN"))
            (asObj (getKey o "Translations/RU"))).1.find?
          (fun r => r.key_path == q)) =
          (ts.find? (fun t => t.key_path == q)).map roundRow := by
  have hokt : ∀ t ∈ ts, rowOk t = true := fun t ht => List.all_eq_true.mp hok t ht
  have hseg : ∀ t ∈ ts, (splitPath t.key_path).all segOk = true :=
    fun t ht => (rowOk_parts (hokt t ht)).1
  obtain ⟨A2, E2, R2, hfold, hpA, hpE, hpR, hPA, hPE, hPR⟩ :=
    devFold_ok ts [] [] [] hseg hap rfl rfl rfl
      (fun t ht => ⟨freshPathB_nil _, freshPathB_nil _, freshPathB_nil _⟩)
  rw [show leafO "" ([] : Jobj) = [] from rfl, List.append_nil] at hPA hPE hPR
  have hnd := keyPaths_nodup hap
  refine ⟨[("Translations/AZ", .obj A2), ("Translations/EN", .obj E2),
    ("Translations/RU", .obj R2)], ?_, ?_⟩
  · unfold buildDeveloperJson
    rw [hfold]
  intro q
  have hgA : getKey [("Translations/AZ", Json.obj A2), ("Translations/EN", Json.obj E2),
      ("Translations/RU", Json.obj R2)] "Translations/AZ" = .obj A2 := by
    unfold getKey assocGet
    rw [List.find?_cons_of_pos (p := fun e : String × Json => e.1 == "Translations/AZ") _
      (show (("Translations/AZ" : String) == "Translations/AZ") = true by decide)]
    rfl
  have hgE : getKey [("Translations/AZ", Json.obj A2), ("Translations/EN", Json.obj E2),
      ("Translations/RU", Json.obj R2)] "Translations/EN" = .obj E2 := by
    unfold getKey assocGet
    rw [List.find?_cons_of_neg (p := fun e : String × Json => e.1 == "Translations/EN") _
      (show ¬(("Translations/AZ" : String) == "Translations/EN") = true by decide)]
    rw [List.find?_cons_of_pos (p := fun e : String × Json => e.1 == "Translations/EN") _
      (show (("Translations/EN" : String) == "Translations/EN") = true by decide)]
    rfl
  have hgR : getKey [("Translations/AZ", Json.obj A2), ("Translations/EN", Json.obj E2),
      ("Translations/RU", Json.obj R2)] "Translations/RU" = .obj R2 := by
    unfold getKey assocGet
    rw [List.find?_cons_of_neg (p := fun e : String × Json => e.1 == "Translations/RU") _
      (show ¬(("Translations/AZ" : String) == "Translations/RU") = true by decide)]
    rw [List.find?_cons_of_neg (p := fun e : String × Json => e.1 == "Translations/RU") _
      (show ¬(("Translations/EN" : String) == "Translations/RU") = true by decide)]
    rw [List.find?_cons_of_pos (p := fun e : String × Json => e.1 == "Translations/RU") _
      (show (("Translations/RU" : String) == "Translations/RU") = true by decide)]
    rfl
  rw [hgA, hgE, hgR]
  have hflat : (flattenJsons (some A2) (some E2) (some R2)).1 =
      (foldUpd .ru (foldUpd .en (foldUpd .az [] (leafO "" A2)) (leafO "" E2))
        (leafO "" R2)).map (fun e => e.2) := by
    simp only [flattenJsons, runFlatten]
    rw [flatten_pure .az "" A2 ⟨[], []⟩ hpA]
    rw [flatten_pure .en "" E2 _ hpE]
    rw [flatten_pure .ru "" R2 _ hpR]
  rw [show asObj (Json.obj A2) = some A2 from rfl, show asObj (Json.obj E2) = some E2
    from rfl, show asObj (Json.obj R2) = some R2 from rfl]
  rw [hflat]
  have hki1 : ∀ e ∈ foldUpd .az [] (leafO "" A2), e.2.key_path = e.1 :=
    foldUpd_key_inv .az (leafO "" A2) [] (fun e he => absurd he (List.not_mem_nil _))
  have hki2 := foldUpd_key_inv .en (leafO "" E2) _ hki1
  have hki3 := foldUpd_key_inv .ru (leafO "" R2) _ hki2
  rw [rows_find_bridge q _ hki3]
  cases hfind : ts.find? (fun t => t.key_path == q) with
  | none =>
      have hnone : ∀ t ∈ ts, ¬((t.key_path == q) = true) :=
        fun t ht => List.find?_eq_none.mp hfind t ht
      have hnotin : ∀ (lang : Lang) (X : Jobj), (leafO "" X).Perm (leafSpec lang ts) →
          ∀ pt ∈ leafO "" X, (pt.1 == q) = false := by
        intro lang X hP pt hpt
        obtain ⟨t1, ht1, w, hw, rfl⟩ := mem_leafSpec.mp (hP.mem_iff.mp hpt)
        show (t1.key_path == q) = false
        have hx := hnone t1 ht1
        rw [Bool.not_eq_true] at hx
        exact hx
      rw [foldUpd_not_mem .ru q _ _ (hnotin .ru R2 hPR)]
      rw [foldUpd_not_mem .en q _ _ (hnotin .en E2 hPE)]
      rw [foldUpd_not_mem .az q _ _ (hnotin .az A2 hPA)]
      rfl
  | some t0 =>
      have ht0 : t0 ∈ ts := List.mem_of_find?_eq_some hfind
      have hq0 : t0.key_path = q :=
        beq_iff_eq.mp (List.find?_some (p := fun t : Translation => t.key_path == q) hfind)
      subst hq0
      rw [foldUpd_langStep .ru hnd ht0 hPR]
      rw [foldUpd_langStep .en hnd ht0 hPE]
      rw [foldUpd_langStep .az hnd ht0 hPA]
      rw [show assocGet ([] : List (String × FlatRow)) t0.key_path = none from rfl]
      rw [langChain t0 (hokt t0 ht0)]
      rfl

/-- C3 (counterexample): the unrestricted round trip fails.  Flattening a
tree whose leaf carries a figma variable id yields a row with
`figma_variable_id = "V"`; building the developer shape from that row and
re-flattening returns the row with `figma_variable_id` null — the sets
differ beyond the admitted `"string"` → `"text"` rewrite. -/
theorem round_trip_loses_figma :
    ((flattenJsons (some [("a", .obj [("$value", .str "x"),
        ("$extensions", .obj [("com.figma", .obj [("variableId", .str "V")])])])])
        none none).1 = [⟨"a", .str "x", .null, .null, .null, .str "V"⟩]) ∧
    ((flattenJsons (some [("a", .obj [("$value", .str "x"),
        ("$extensions", .obj [("com.figma", .obj [("variableId", .str "V")])])])])
        none none).1.map translationOfRow =
      [⟨"a", some "x", none, none, none, some "V"⟩]) ∧
    (buildDeveloperJson [⟨"a", some "x", none, none, none, some "V"⟩] =
      .ok [("Translations/AZ", .obj [("a", .obj [("$value", .str "x"), ("$type", .null)])]),
           ("Translations/EN", .obj []), ("Translations/RU", .obj [])]) ∧
    ((flattenJsons (some [("a", .obj [("$value", .str "x"), ("$type", .null)])])
        (some []) (some [])).1 = [⟨"a", .str "x", .null, .null, .null, .null⟩]) ∧
    (⟨"a", .str "x", .null, .null, .null, .null⟩ : FlatRow) ≠
      ⟨"a", .str "x", .null, .null, .null, .str "V"⟩ := by
  decide

/-- C3 (witness): the amended round trip at two concrete rows. -/
theorem buildDeveloperJson_round_trip_witness :
    ([(⟨"colors.primary", some "Qirmizi", some "Red", none, some "string", some "VID"⟩ :
        Translation),
      ⟨"a", none, some "Hi", none, none, none⟩].all rowOk = true) ∧
    (apartPaths [⟨"colors.primary", some "Qirmizi", some "Red", none, some "string",
        some "VID"⟩, ⟨"a", none, some "Hi", none, none, none⟩] = true) ∧
    ∃ o, buildDeveloperJson [⟨"colors.primary", some "Qirmizi", some "Red", none,
        some "string", some "VID"⟩, ⟨"a", none, some "Hi", none, none, none⟩] = .ok o ∧
      ∀ q : String,
        ((flattenJsons (asObj (getKey o "Translations/AZ"))
            (asObj (getKey o "Translations/EN"))
            (asObj (getKey o "Translations/RU"))).1.find?
          (fun r => r.key_path == q)) =
          ([(⟨"colors.primary", some "Qirmizi", some "Red", none, some "string",
              some "VID"⟩ : Translation),
            ⟨"a", none, some "Hi", none, none, none⟩].find?
            (fun t => t.key_path == q)).map roundRow :=
  ⟨by decide, by decide,
    buildDeveloperJson_round_trip
      [⟨"colors.primary", some "Qirmizi", some "Red", none, some "string", some "VID"⟩,
       ⟨"a", none, some "Hi", none, none, none⟩] (by decide) (by decide)⟩

/-- C9 (counterexample): the core is not total, and non-object children are
not all skipped.  `buildFigmaJson` throws a `TypeError` when a later key
path walks through the `$type : null` property of an earlier token
(`typeof null === 'object'`), and the flattener descends into arrays
(`typeof [] === 'object'`), emitting rows keyed by numeric indices instead
of skipping them. -/
theorem core_can_throw_and_descends_arrays :
    (buildFigmaJson [⟨"r", some "v", none, none, none, none⟩,
        ⟨"r.$type.s", some "w", none, none, none, none⟩] [] .az = .error ()) ∧
    ((flattenJsons (some [("a", .arr [.obj [("$value", .str "x")]])]) none none).1 =
      [⟨"a.0", .str "x", .null, .null, .null, .null⟩]) := by
  decide

/-- C9 (amended): totality of the core, corrected.  The flattener and the
duplicate detector are total; the flattener skips `null`, boolean, number
and string children (though it descends into arrays), and a leaf with
absent `$type` / `$extensions` keeps the row's previous metadata.  The
builders, however, can throw; `buildDeveloperJson` is total on row lists
whose key paths have admissible segments and are pairwise segment-apart. -/
theorem core_totality (ts : List Translation)
    (hseg : ∀ t ∈ ts, (splitPath t.key_path).all segOk = true)
    (hap : apartPaths ts = true) :
    (∃ o, buildDeveloperJson ts = .ok o) ∧
    (∀ (lang : Lang) (pre k : String) (st : FlatState),
      flattenEntry lang pre k .null st = st ∧
      (∀ b, flattenEntry lang pre k (.bool b) st = st) ∧
      (∀ n, flattenEntry lang pre k (.num n) st = st) ∧
      (∀ s, flattenEntry lang pre k (.str s) st = st)) ∧
    (∀ (lang : Lang) (child : Jobj) (path : String) (old : Option FlatRow),
      hasKey child "$type" = false → hasKey child "$extensions" = false →
      (updateLeafRow lang child path old).token_type =
        (old.getD (FlatRow.blank path)).token_type ∧
      (updateLeafRow lang child path old).figma_variable_id =
        (old.getD (FlatRow.blank path)).figma_variable_id) := by
  refine ⟨?_, ?_, ?_⟩
  · obtain ⟨A2, E2, R2, hfold, _⟩ :=
      devFold_ok ts [] [] [] hseg hap rfl rfl rfl
        (fun t ht => ⟨freshPathB_nil _, freshPathB_nil _, freshPathB_nil _⟩)
    refine ⟨[("Translations/AZ", .obj A2), ("Translations/EN", .obj E2),
      ("Translations/RU", .obj R2)], ?_⟩
    unfold buildDeveloperJson
    rw [hfold]
  · intro lang pre k st
    by_cases hk : (k == "$extensions") = true
    · refine ⟨?_, fun b => ?_, fun n => ?_, fun s => ?_⟩ <;>
        rw [flattenEntry.eq_def, if_pos hk]
    · rw [Bool.not_eq_true] at hk
      refine ⟨?_, fun b => ?_, fun n => ?_, fun s => ?_⟩ <;>
        rw [flattenEntry.eq_def, if_neg (by rw [hk]; exact Bool.false_ne_true)]
  · intro lang child path old h1 h2
    have ht : getKey child "$type" = .null := by
      unfold getKey
      rw [assocGet_of_not_hasKey h1]
      rfl
    have he : getKey child "$extensions" = .null := by
      unfold getKey
      rw [assocGet_of_not_hasKey h2]
      rfl
    simp only [updateLeafRow]
    rw [ht, he]
    cases lang <;> exact ⟨rfl, rfl⟩

/-- C9 (witness): the amended totality at a concrete two-row list with a
nested and a flat key path. -/
theorem core_totality_witness :
    (∀ t ∈ [(⟨"a.b", some "x", none, none, some "color", none⟩ : Translation),
        ⟨"c", none, some "y", none, none, none⟩],
      (splitPath t.key_path).all segOk = true) ∧
    (apartPaths [⟨"a.b", some "x", none, none, some "color", none⟩,
        ⟨"c", none, some "y", none, none, none⟩] = true) ∧
    ((∃ o, buildDeveloperJson [⟨"a.b", some "x", none, none, some "color", none⟩,
        ⟨"c", none, some "y", none, none, none⟩] = .ok o) ∧
    (∀ (lang : Lang) (pre k : String) (st : FlatState),
      flattenEntry lang pre k .null st = st ∧
      (∀ b, flattenEntry lang pre k (.bool b) st = st) ∧
      (∀ n, flattenEntry lang pre k (.num n) st = st) ∧
      (∀ s, flattenEntry lang pre k (.str s) st = st)) ∧
    (∀ (lang : Lang) (child : Jobj) (path : String) (old : Option FlatRow),
      hasKey child "$type" = false → hasKey child "$extensions" = false →
      (updateLeafRow lang child path old).token_type =
        (old.getD (FlatRow.blank path)).token_type ∧
      (updateLeafRow lang child path old).figma_variable_id =
        (old.getD (FlatRow.blank path)).figma_variable_id)) :=
  ⟨by decide, by decide,
    core_totality [⟨"a.b", some "x", none, none, some "color", none⟩,
      ⟨"c", none, some "y", none, none, none⟩] (by decide) (by decide)⟩

end Croc
